import Mathlib

/-!
Verification of the tavern chunked HTTP cache against its specification.

This file shallowly embeds the parts of the Go source that the checked
claims are about:

* `pkg/iobuf` bitmap primitives (`FullHit`, `PartHit`, `BlockGroup`,
  `groupBy`) — the kelindar bitmap is modelled as a `Finset ℕ` of set
  bit indices; `Range` iteration is ascending-order iteration, modelled
  as the increasing list of members.
* `api/defined/v1/storage/object` metadata (`Metadata.HasComplete`).
* the revalidate processor (`RevalidateProcessor.Lookup`,
  `PreRequest`, `revalidate`) from the caching middleware.
* `Caching.lazilyRespond` and the cache-hit Range check of `Middleware`.
* the `Accept-Encoding` compatibility matcher of `varycontrol`.
* the RFC 7233 Range parser (`unsatisfiableParser.Parse` / `SingleParse`).
* the block-streaming reader (`savepartReader` in `pkg/iobuf`).

Machine integers: Go `uint32` arithmetic that can wrap is modelled with
explicit `% 2^32`; `uint64`/`int64` quantities stay in `ℕ`/`ℤ` (claims
carry explicit bounds where 64-bit overflow could matter).  Go runtime
panics (integer division by zero, failed type assertions) are modelled
by an explicit `GoPanic` error in an `Except`.  Go strings are modelled
as `List Char`.
-/

namespace Tavern

deriving instance DecidableEq for Except

/-- Runtime panics of the Go program that the embedding makes explicit. -/
inductive GoPanic where
  /-- integer division (or modulus) by zero -/
  | divideByZero : GoPanic
  /-- a type assertion `v.(string)` applied to a nil interface value -/
  | nilTypeAssertion : GoPanic
  deriving DecidableEq, Repr

/-! ## Bitmap primitives (`pkg/iobuf`, unnamed part_003)

The kelindar bitmap is a set of `uint32` indices; we model it as a
`Finset ℕ` whose members are the set bits.  `Contains` is membership,
`And`/`AndNot` are `∩`/`\`, `Range` iterates set bits in ascending
order. -/

/-- `2^32`, the number of values of a Go `uint32`. -/
def U32 : ℕ := 4294967296

/-- Ascending list of the set bits of a bitmap (`Bitmap.Range` visits
set bits in ascending index order): the members of the set, listed in
increasing order. -/
def bitmapAscList (bm : Finset ℕ) : List ℕ :=
  (List.range (bm.sup id + 1)).filter (· ∈ bm)

/-- Loop body of `FullHit`: Go `for i := first; i <= last; i++` over a
`uint32` loop variable, so the increment wraps modulo `2^32`.  The
fuel argument makes the function total: after `2^32 + 1` condition
checks the loop variable has revisited a value with the bitmap
unchanged, so the Go loop diverges; that case is `none`. -/
def fullHitAux (fs : Finset ℕ) (last : ℕ) : ℕ → ℕ → Option Bool
  | 0, _ => none
  | fuel + 1, i =>
    if i ≤ last then
      if i ∈ fs then fullHitAux fs last fuel ((i + 1) % U32)
      else some false
    else some true

/-- `FullHit(first, last, fs)`: true iff every index of `[first, last]`
is in the bitmap (scanning loop of the source). -/
def FullHit (first last : ℕ) (fs : Finset ℕ) : Option Bool :=
  fullHitAux fs last (U32 + 1) first

/-- Loop body of `PartHit`, with the same wrapping/fuel treatment as
`fullHitAux`. -/
def partHitAux (fs : Finset ℕ) (last : ℕ) : ℕ → ℕ → Option Bool
  | 0, _ => none
  | fuel + 1, i =>
    if i ≤ last then
      if i ∈ fs then some true
      else partHitAux fs last fuel ((i + 1) % U32)
    else some false

/-- `PartHit(first, last, fs)`: true iff some index of `[first, last]`
is in the bitmap. -/
def PartHit (first last : ℕ) (fs : Finset ℕ) : Option Bool :=
  partHitAux fs last (U32 + 1) first

/-- A hit/miss run of block indices (`iobuf.Block`). -/
structure Block where
  Match : Bool
  BlockRange : List ℕ
  deriving DecidableEq, Repr

/-- Inner loop of `groupBy`: extends the current run `group` (whose last
element is `prev`) while indices stay consecutive, flushing the run
otherwise. -/
def groupByAux : List ℕ → ℕ → List ℕ → List (List ℕ)
  | [], _, group => [group]
  | x :: rest, prev, group =>
    if x = prev + 1 then groupByAux rest x (group ++ [x])
    else group :: groupByAux rest x [x]

/-- `groupBy(v)`: splits an ascending index list into maximal runs of
consecutive indices. -/
def groupBy : List ℕ → List (List ℕ)
  | [] => []
  | x :: rest => groupByAux rest x [x]

/-- The comparator passed to `slices.SortFunc` in `BlockGroup`:
`int(a.BlockRange[0] - b.BlockRange[0])`.  The subtraction is performed
on `uint32` and wraps modulo `2^32`; the conversion to `int` (64-bit,
`GOARCH=amd64`) of a `uint32` value is therefore always non-negative. -/
def blockCmp (a b : Block) : ℤ :=
  ((a.BlockRange.headD 0 + U32 - b.BlockRange.headD 0) % U32 : ℕ)

/-- One right-to-left insertion step of Go's insertion sort
(`for j := i; j > 0 && cmp(data[j], data[j-1]) < 0; j--`): the new
element `x` moves left past `y` exactly while `cmp x y < 0`.  The
already-sorted prefix is given reversed. -/
def insertRev {α : Type} (cmp : α → α → ℤ) (x : α) : List α → List α
  | [] => [x]
  | y :: rev => if cmp x y < 0 then y :: insertRev cmp x rev else x :: y :: rev

/-- Go's `insertionSortCmpFunc`, which is what `slices.SortFunc`
executes for slices of length at most 12 (the pdqsort small-slice
case; every input this development evaluates is that short). -/
def insertionSortCmpFunc {α : Type} (cmp : α → α → ℤ) (l : List α) : List α :=
  (l.foldl (fun acc x => insertRev cmp x acc) []).reverse

/-- `BlockGroup(hitter, want)`: intersect `want` with `hitter` to get
hit indices, subtract to get miss indices, group both into runs, label
them, and sort the labelled runs with `blockCmp`. -/
def BlockGroup (hitter want : Finset ℕ) : List Block :=
  let hitRange := bitmapAscList (want ∩ hitter)
  let hitGroup := groupBy hitRange
  let missRange := bitmapAscList (want \ hitter)
  let missGroup := groupBy missRange
  let result := hitGroup.map (fun v => Block.mk true v)
    ++ missGroup.map (fun v => Block.mk false v)
  insertionSortCmpFunc blockCmp result

/-! ## Object metadata (`api/defined/v1/storage/object/object.go`) -/

/-- Go `http.Header`, restricted to what the claims need: an association
list of (canonical key, value) pairs; `Get` returns the first value for
the key or the empty string. -/
def Header : Type := List (List Char × List Char)

instance : DecidableEq Header := inferInstanceAs (DecidableEq (List _))

/-- `http.Header.Get`: first value stored for the key, `""` if none. -/
def headerGet (h : Header) (key : List Char) : List Char :=
  ((h.find? fun kv => kv.1 = key).map Prod.snd).getD []

/-- `http.Header.Set`: replace all values of the key by the single
given value. -/
def headerSet (h : Header) (key value : List Char) : Header :=
  (h.filter (fun kv => kv.1 ≠ key)) ++ [(key, value)]

/-- `object.CacheFlag` values (`FlagVaryIndex = 1`). -/
def FlagVaryIndex : ℕ := 1

/-- `object.Metadata`, restricted to the fields the claims read. -/
structure Metadata where
  Flags : ℕ
  BlockSize : ℕ
  Parts : Finset ℕ
  Code : ℕ
  Size : ℕ
  ExpiresAt : ℤ
  Headers : Header

/-- `Metadata.IsVary`: the flags equal `FlagVaryIndex`. -/
def Metadata.IsVary (m : Metadata) : Bool :=
  m.Flags = FlagVaryIndex

/-- `Metadata.HasComplete`.  The Go source divides `m.Size` by
`m.BlockSize` with no zero guard; a zero `BlockSize` with positive
`Size` is therefore a runtime panic, which the embedding returns as
`GoPanic.divideByZero`. -/
def Metadata.HasComplete (m : Metadata) : Except GoPanic Bool :=
  if m.IsVary then .ok false
  else if m.Size ≤ 0 then .ok false
  else if m.BlockSize = 0 then .error .divideByZero
  else
    let n := m.Size / m.BlockSize
    let n := if m.Size % m.BlockSize ≠ 0 then n + 1 else n
    .ok (decide (n = m.Parts.card))

/-- The fresh `object.Metadata` literal built by `Caching.doProxy` when
no record exists (caching.go lines 334–344): only `ID`, `Headers`,
`Parts`, `Size`, `Code`, `RespUnix`, `LastRefUnix` are set, so
`BlockSize` keeps the Go zero value `0` and `Flags`/`ExpiresAt` are
zero. -/
def doProxyFreshMetadata (objSize : ℕ) : Metadata where
  Flags := 0
  BlockSize := 0
  Parts := ∅
  Code := 200
  Size := objSize
  ExpiresAt := 0
  Headers := []

/-! ## Revalidate processor (`RevalidateProcessor.Lookup`, unnamed part_008) -/

/-- `storage.CacheStatus` (storage.go). -/
inductive CacheStatus where
  | miss | hit | parentHit | partHit | revalidateHit | revalidateMiss
  | partMiss | hotHit | bypass
  deriving DecidableEq, Repr

/-- `hasExpired(md)`: `time.Unix(md.ExpiresAt, 0).Before(time.Now())`,
with the current time passed in as a unix-seconds value. -/
def hasExpired (m : Metadata) (now : ℤ) : Bool :=
  m.ExpiresAt < now

/-- `hasConditionHeader(header)`: an `ETag` or `Last-Modified` value is
present. -/
def hasConditionHeader (h : Header) : Bool :=
  headerGet h "ETag".toList ≠ [] || headerGet h "Last-Modified".toList ≠ []

/-- Result of `RevalidateProcessor.Lookup`: the returned hit flag and
the driver fields it mutates (`c.revalidate`, `c.cacheStatus`, whether
`c.bucket.DiscardWithMessage` was called on the record). -/
structure LookupOutcome where
  hit : Bool
  revalidate : Bool
  cacheStatus : Option CacheStatus
  discarded : Bool
  deriving DecidableEq, Repr

/-- `RevalidateProcessor.Lookup`.  `c.md` may be absent; the current
time is a parameter.  `c.md.HasComplete()` can panic (division by
zero), which propagates out of `Lookup`. -/
def RevalidateProcessor.Lookup (md : Option Metadata) (now : ℤ) :
    Except GoPanic LookupOutcome :=
  match md with
  | none => .ok { hit := false, revalidate := false, cacheStatus := none, discarded := false }
  | some m =>
    if !(hasExpired m now) then
      .ok { hit := true, revalidate := false, cacheStatus := none, discarded := false }
    else do
      let complete ← m.HasComplete
      if complete && hasConditionHeader m.Headers then
        .ok { hit := false, revalidate := true,
              cacheStatus := some .revalidateHit, discarded := false }
      else
        .ok { hit := false, revalidate := true,
              cacheStatus := some .revalidateMiss, discarded := true }

/-! ## Go string and number primitives

Go strings are modelled as `List Char`; the handful of standard-library
functions the embedded code uses are reproduced here. -/

/-- The character for a decimal digit value. -/
def digitChar (d : ℕ) : Char := Char.ofNat (48 + d)

/-- Fuelled decimal rendering (the fuel only makes the structural
recursion explicit; `natDigits` supplies enough). -/
def natDigitsAux : ℕ → ℕ → List Char
  | 0, _ => []
  | fuel + 1, n =>
    if n < 10 then [digitChar n]
    else natDigitsAux fuel (n / 10) ++ [digitChar (n % 10)]

/-- Decimal rendering of a natural number (`fmt` verb `%d` on an
unsigned value). -/
def natDigits (n : ℕ) : List Char := natDigitsAux (n + 1) n

/-- Decimal rendering of an integer (`fmt` verb `%d` on an `int64`). -/
def goItoa (z : ℤ) : List Char :=
  if z < 0 then '-' :: natDigits z.natAbs else natDigits z.toNat

/-- The characters `strings.TrimSpace` removes (`unicode.IsSpace`,
restricted to ASCII). -/
def isGoSpace (c : Char) : Bool :=
  c = ' ' || c = Char.ofNat 9 || c = Char.ofNat 10 || c = Char.ofNat 11 ||
    c = Char.ofNat 12 || c = Char.ofNat 13

/-- `strings.TrimSpace`. -/
def goTrimSpace (s : List Char) : List Char :=
  ((s.dropWhile isGoSpace).reverse.dropWhile isGoSpace).reverse

/-- The per-character digit test of the numeric parsers
(`'0' <= c && c <= '9'`). -/
def goIsDigit (c : Char) : Bool :=
  48 ≤ c.toNat && c.toNat ≤ 57

/-- Accumulated value of a decimal digit string (shared by the integer
and float parsers). -/
def digitsVal (l : List Char) : ℕ :=
  l.foldl (fun acc c => acc * 10 + (c.toNat - 48)) 0

/-- `strconv.ParseInt(s, 10, 64)`: optional sign, decimal digits, and
the 64-bit range check; `none` stands for any returned error. -/
def goParseInt64 (s : List Char) : Option ℤ :=
  let sign : ℤ := if s.headD ' ' = '-' then -1 else 1
  let digits := if s.headD ' ' = '+' || s.headD ' ' = '-' then s.tail else s
  if digits = [] then none
  else if digits.all goIsDigit then
    let z : ℤ := sign * (digitsVal digits : ℤ)
    if -(2 ^ 63) ≤ z ∧ z ≤ 2 ^ 63 - 1 then some z else none
  else none

/-- `strconv.ParseFloat(s, 64)`, modelled on plain decimal literals
(optional sign, integer digits, optional fractional digits), keeping
the exact rational value: the claims only compare parsed q values with
zero and with each other, and float64 rounding of such literals
preserves sign and order at Accept-Encoding magnitudes. -/
def goParseFloat (s : List Char) : Option ℚ :=
  let sign : ℤ := if s.headD ' ' = '-' then -1 else 1
  let body := if s.headD ' ' = '+' || s.headD ' ' = '-' then s.tail else s
  match body.splitOn '.' with
  | [ip] =>
    if ip ≠ [] ∧ ip.all goIsDigit then some (mkRat (sign * digitsVal ip) 1)
    else none
  | [ip, fp] =>
    if (ip ++ fp) ≠ [] ∧ ip.all goIsDigit ∧ fp.all goIsDigit then
      some (mkRat (sign * (digitsVal ip * 10 ^ fp.length + digitsVal fp)) (10 ^ fp.length))
    else none
  | _ => none

/-- `strings.EqualFold`, restricted to ASCII case folding. -/
def goEqualFold : List Char → List Char → Bool
  | [], [] => true
  | a :: as, b :: bs => (a.toLower = b.toLower) && goEqualFold as bs
  | _, _ => false

/-! ## `Caching.lazilyRespond` response assembly (caching.go 207–227) -/

/-- The response-assembly tail of `Caching.lazilyRespond`: the status
code starts as `c.md.Code`, headers are copied from the metadata
(`CopyHeader(resp.Header, c.md.Headers)` with an empty destination),
`Range` requests get status 206 plus a `Content-Range` header, and
`Content-Length` is always set to `end - start + 1`.  Returns
`(status code, ContentLength, headers)`. -/
def lazilyRespondMeta (mdCode mdSize : ℕ) (mdHeaders : Header)
    (rawRange : List Char) (start stop : ℤ) : ℕ × ℤ × Header :=
  let statusCode := if rawRange ≠ [] then 206 else mdCode
  let headers :=
    if rawRange ≠ [] then
      headerSet mdHeaders "Content-Range".toList
        ("bytes ".toList ++ goItoa start ++ "-".toList ++ goItoa stop
          ++ "/".toList ++ natDigits mdSize)
    else mdHeaders
  let cl := stop - start + 1
  (statusCode, cl, headerSet headers "Content-Length".toList (goItoa cl))

/-! ## Accept-Encoding compatibility (`pkg/x/http/varycontrol`) -/

/-- One entry of a parsed `Accept-Encoding` header (`AcceptEncoding`):
an encoding name and its q value (default 1.0). -/
structure AcceptEncoding where
  Value : List Char
  Q : ℚ
  deriving DecidableEq, Repr

/-- One right-to-left insertion step of Go's `Less`-based insertion
sort (`insertionSort` in package `sort`): the new element moves left
exactly while `less x y`. -/
def insertRevLess {α : Type} (less : α → α → Bool) (x : α) : List α → List α
  | [] => [x]
  | y :: rev => if less x y then y :: insertRevLess less x rev else x :: y :: rev

/-- `sort.Sort`, which executes plain insertion sort for slices of
length at most 12 (the pdqsort small-slice case; every list this
development evaluates is that short). -/
def insertionSortLess {α : Type} (less : α → α → Bool) (l : List α) : List α :=
  (l.foldl (fun acc x => insertRevLess less x acc) []).reverse

/-- `AcceptEncodingList.Less`: descending by q value. -/
def acceptEncodingLess (a b : AcceptEncoding) : Bool :=
  a.Q > b.Q

/-- `ParseAcceptEncoding(header)`: split on commas, trim, read an
optional `;q=` parameter per entry (unparsable q values leave the
default 1.0), and sort descending by q. -/
def ParseAcceptEncoding (header : List Char) : List AcceptEncoding :=
  if header = [] then []
  else
    let parts := header.splitOn ','
    let result := parts.foldl (fun acc part =>
      let encoding := goTrimSpace part
      if encoding = [] then acc
      else
        let entry :=
          if encoding.contains ';' then
            let segments := encoding.splitOn ';'
            let enc := goTrimSpace (segments.headD [])
            let q := segments.tail.foldl (fun q seg =>
              let seg := goTrimSpace seg
              if "q=".toList.isPrefixOf seg then
                match goParseFloat (goTrimSpace (seg.drop 2)) with
                | some parsedQ => parsedQ
                | none => q
              else q) (1 : ℚ)
            AcceptEncoding.mk enc q
          else AcceptEncoding.mk encoding 1
        acc ++ [entry]) []
    insertionSortLess acceptEncodingLess result

/-- The scan loop of `SupportsEncoding`: skip entries with `q ≤ 0`;
`*` accepts anything; an exact `identity` entry accepts only the empty
or `identity` content encoding; otherwise match case-insensitively. -/
def supportsEncodingLoop (encoding : List Char) : List AcceptEncoding → Bool
  | [] => false
  | item :: rest =>
    if item.Q ≤ 0 then supportsEncodingLoop encoding rest
    else if item.Value = "*".toList then true
    else if item.Value = "identity".toList then
      if encoding = [] ∨ encoding = "identity".toList then true
      else supportsEncodingLoop encoding rest
    else if goEqualFold item.Value encoding then true
    else supportsEncodingLoop encoding rest

/-- `SupportsEncoding(list, encoding)`: with an empty list only the
empty or `identity` encoding is supported; otherwise scan the list. -/
def SupportsEncoding (list : List AcceptEncoding) (encoding : List Char) : Bool :=
  if list.length = 0 then encoding = [] || encoding = "identity".toList
  else supportsEncodingLoop encoding list

/-! ## RFC 7233 Range parsing (`unsatisfiableParser`, pkg/x/http) -/

/-- The two error values `Parse`/`SingleParse` can return
(`ErrRangeHeaderNotFound`, `ErrRangeHeaderInvalidFormat`). -/
inductive RangeErr where
  | notFound | invalidFormat
  deriving DecidableEq, Repr

/-- `xhttp.Range`: a resolved byte range. -/
structure GoRange where
  Start : ℤ
  End : ℤ
  deriving DecidableEq, Repr

/-- Tail of the per-part loop body: clamp the end to `size64 - 1` and
drop the part when `start > end || start < 0`. -/
def clampCheckRange (size64 start end0 : ℤ) : Option GoRange :=
  let end1 := if end0 ≥ size64 then size64 - 1 else end0
  if start > end1 ∨ start < 0 then none else some ⟨start, end1⟩

/-- One iteration of the loop over comma-separated parts in
`unsatisfiableParser.Parse`: trim, require a `-`, split on `-`, parse
both fields, apply the suffix and open-end fixups, then clamp and check.
`none` means the part contributes no range (`continue`). -/
def parsePart (size64 : ℤ) (part0 : List Char) : Option GoRange :=
  let part := goTrimSpace part0
  if ¬ ('-' ∈ part) then none
  else
    let r := part.splitOn '-'
    if r.length < 2 then
      -- Dead in Go: splitting a string that contains '-' yields at
      -- least two fields.  Kept to mirror the source's shape.
      if part.headD ' ' = '-' then
        match goParseInt64 (r.getD 1 []) with
        | none => none
        | some e => some ⟨size64 - e, size64 - 1⟩
      else if part.getLastD ' ' = '-' then
        match goParseInt64 (r.getD 0 []) with
        | none => none
        | some s => some ⟨s, size64 - 1⟩
      else none
    else
      match goParseInt64 (r.getD 0 []), goParseInt64 (r.getD 1 []) with
      | none, none => none
      | none, some e => clampCheckRange size64 (size64 - e) (size64 - 1)
      | some s, none => clampCheckRange size64 s (size64 - 1)
      | some s, some e => clampCheckRange size64 s e

/-- `unsatisfiableParser.Parse(header, size)`. -/
def Parse (header : List Char) (size : ℕ) : Except RangeErr (List GoRange) :=
  if header = [] then .error .notFound
  else if ¬ ("bytes=".toList.isPrefixOf header) then .error .invalidFormat
  else
    match header.findIdx? (· = '=') with
    | none => .error .invalidFormat
    | some index =>
      let size64 : ℤ := (size : ℤ)
      let multipart := (header.drop (index + 1)).splitOn ','
      let ranges := multipart.filterMap (parsePart size64)
      if ranges = [] then .error .invalidFormat
      else .ok ranges

/-- `unsatisfiableParser.SingleParse(header, size)` (exported as
`xhttp.SingleRange`): a missing header means the whole object; any
other failure, or an empty range list, is `invalidFormat`. -/
def SingleParse (header : List Char) (size : ℕ) : Except RangeErr GoRange :=
  match Parse header size with
  | .error .notFound => if size = 0 then .ok ⟨0, 0⟩ else .ok ⟨0, (size : ℤ) - 1⟩
  | .ok (r :: _) => .ok r
  | _ => .error .invalidFormat

/-- The cache-hit Range check of `Middleware` (caching.go 90–100):
on a `SingleRange` failure the request fails with 416 and headers
carrying `Content-Range: bytes */<size>`.  (The source calls
`CopyHeader(caching.md.Headers, headers)` with the freshly made empty
`headers` as the *source*, so nothing is copied into the response
headers before `Content-Range` is set.) -/
def cacheHitRangeCheck (rawRange : List Char) (mdSize : ℕ) :
    Except (ℕ × Header) GoRange :=
  match SingleParse rawRange mdSize with
  | .error _ =>
    .error (416, headerSet [] "Content-Range".toList
      ("bytes */".toList ++ natDigits mdSize))
  | .ok rng => .ok rng

/-! ### Spec-side view of byte-range-specs (for claim C6) -/

/-- Modelled from the spec: one RFC 7233 byte-range-spec, as written in
a `Range: bytes=` header — `a-b`, `a-`, or `-n`. -/
inductive ByteRangeSpec where
  | both (a b : ℕ)
  | fromStart (a : ℕ)
  | suffix (n : ℕ)
  deriving DecidableEq, Repr

/-- The header text of one byte-range-spec. -/
def renderSpec : ByteRangeSpec → List Char
  | .both a b => natDigits a ++ '-' :: natDigits b
  | .fromStart a => natDigits a ++ ['-']
  | .suffix n => '-' :: natDigits n

/-- Modelled from the spec: the set of byte positions of an object of
the given size that a byte-range-spec denotes (RFC 7233 semantics:
`a-b` is `[a, b]` clipped to the object, `a-` runs to the object end,
`-n` is the final `n` bytes). -/
def specDenotes (size : ℕ) : ByteRangeSpec → Finset ℕ
  | .both a b => (Finset.range size).filter (fun i => a ≤ i ∧ i ≤ b)
  | .fromStart a => (Finset.range size).filter (fun i => a ≤ i)
  | .suffix n => (Finset.range size).filter (fun i => size - n ≤ i)

/-- The numbers of a byte-range-spec fit in an `int64` (so
`strconv.ParseInt` accepts them). -/
def specBound : ByteRangeSpec → Bool
  | .both a b => a ≤ 2 ^ 63 - 1 && b ≤ 2 ^ 63 - 1
  | .fromStart a => a ≤ 2 ^ 63 - 1
  | .suffix n => n ≤ 2 ^ 63 - 1

/-! ## Revalidate processor: PreRequest stash and 304 replay
(unnamed part_008) -/

/-- The `rawRangeKey` context value left by
`RevalidateProcessor.PreRequest`: only a revalidating request that has
a condition header (an `ETag`, a `Last-Modified`, or a stored non-2xx
code) and a non-empty `Range` header gets its raw range stashed.  The
`If-None-Match`/`If-Modified-Since` header writes are irrelevant here
and not modelled. -/
def preRequestStashedRange (revalidate : Bool) (mdHeaders : Header) (mdCode : ℕ)
    (rawRange : List Char) : Option (List Char) :=
  if revalidate then
    let conditionHeader :=
      headerGet mdHeaders "ETag".toList ≠ [] ∨
        headerGet mdHeaders "Last-Modified".toList ≠ [] ∨ 300 ≤ mdCode
    if ¬ conditionHeader then none
    else if rawRange ≠ [] then some rawRange else none
  else none

/-- The unguarded type assertion
`req.Context().Value(rawRangeKey{}).(string)`: on a nil interface
value (no stashed range) Go panics. -/
def goStringAssert (v : Option (List Char)) : Except GoPanic (List Char) :=
  match v with
  | none => .error .nilTypeAssertion
  | some s => .ok s

/-- How `RevalidateProcessor.revalidate` replays the cached body on a
`304 Not Modified`. -/
inductive ReplayOutcome where
  /-- `SingleRange` failed: a 416 `BizError` is returned -/
  | rangeNotSatisfiable
  /-- `c.lazilyRespond(req, start, end)` -/
  | replay (start stop : ℤ)
  deriving DecidableEq, Repr

/-- The 304 branch of `RevalidateProcessor.revalidate` after
`freshness`: read the stashed raw range back out of the context with an
unguarded `.(string)` assertion, then replay either the requested range
or the whole object. -/
def revalidateOn304 (stashed : Option (List Char)) (mdSize : ℕ) :
    Except GoPanic ReplayOutcome := do
  let rawRange ← goStringAssert stashed
  if rawRange ≠ [] then
    match SingleParse rawRange mdSize with
    | .error _ => return .rangeNotSatisfiable
    | .ok rng => return .replay rng.Start rng.End
  else
    let end0 : ℤ := if 0 < mdSize then (mdSize : ℤ) - 1 else 0
    return .replay 0 end0

/-! ## Block-streaming reader (`savepartReader`, pkg/iobuf)

The reader state, its `flush` loop, and `Read` are embedded as pure
state-passing functions.  The `onSuccess` callback is modelled by a
failure oracle `cbFail : ℕ → SPEvent → Bool` consulted with the number
of previous invocations and the event; every invocation is recorded as
an `SPEvent`.  The `flush` loop is written with explicit fuel to keep
the recursion structural (each iteration consumes at least one byte
once skipping is over; `chunk.length + 2` iterations always suffice,
which the correctness lemma proves). -/

/-- Mutable state of a `savepartReader` (`skip`, `eof`, `pos`,
`blockSize`, `buf`). -/
structure SPState where
  skip : Bool
  eofFlag : Bool
  pos : ℕ
  blockSize : ℕ
  buf : List ℕ
  deriving DecidableEq, Repr

/-- One `onSuccess` invocation: `(buf, bitIdx, pos, eof)`. -/
structure SPEvent where
  buf : List ℕ
  bitIdx : ℕ
  pos : ℕ
  eof : Bool
  deriving DecidableEq, Repr

/-- Errors out of `flush`: a callback error (wrapped
`savepart_onSuccess err %w`), the `partial copy` error (provably
unreachable), the division-by-zero panic for a zero block size, and
fuel exhaustion (an artifact of the fuelled loop, provably
unreachable). -/
inductive SPErr where
  | callback (callIdx : ℕ)
  | shortCopy
  | divByZero
  | fuelOut
  deriving DecidableEq, Repr

/-- The initial state built by `SavepartReader(r, blockSize, startAt,
...)`. -/
def initSavepart (blockSize startAt : ℕ) : SPState :=
  { skip := startAt > 0, eofFlag := false, pos := startAt,
    blockSize := blockSize, buf := [] }

/-- `savepartReader.writeBlock`: set the eof flag, do nothing on an
empty buffer, otherwise invoke the callback with
`mod = uint32((pos − len(buf)) / blockSize)` — the uint64 quotient
truncated to `uint32`, i.e. reduced `% 2^32` — and reset the buffer on
success.  Returns (state, next call count, recorded invocations,
error). -/
def writeBlock (cbFail : ℕ → SPEvent → Bool) (cnt : ℕ) (s : SPState) (eof : Bool) :
    SPState × ℕ × List SPEvent × Option SPErr :=
  let s := { s with eofFlag := eof }
  if s.buf.length = 0 then (s, cnt, [], none)
  else if s.blockSize = 0 then (s, cnt, [], some .divByZero)
  else
    let mod := (s.pos - s.buf.length) / s.blockSize % U32
    let ev : SPEvent := ⟨s.buf, mod, s.pos, eof⟩
    if cbFail cnt ev then (s, cnt + 1, [ev], some (.callback cnt))
    else ({ s with buf := [] }, cnt + 1, [ev], none)

/-- The `for remaining > 0` loop of `savepartReader.flush`, walking
`data` from `datapos`. -/
def flushLoop (cbFail : ℕ → SPEvent → Bool) (eof : Bool) (data : List ℕ) :
    ℕ → SPState → ℕ → ℕ → SPState × ℕ × List SPEvent × Option SPErr
  | 0, s, cnt, _ => (s, cnt, [], some .fuelOut)
  | fuel + 1, s, cnt, datapos =>
    if data.length - datapos = 0 then (s, cnt, [], none)
    else if s.blockSize = 0 then (s, cnt, [], some .divByZero)
    else
      let first := s.pos % s.blockSize
      let to0 := s.blockSize - first
      if s.skip then
        if first ≠ 0 then
          let skipN := min to0 (data.length - datapos)
          flushLoop cbFail eof data fuel { s with pos := s.pos + skipN } cnt (datapos + skipN)
        else
          flushLoop cbFail eof data fuel { s with skip := false } cnt datapos
      else
        let w :=
          if s.buf.length = s.blockSize then writeBlock cbFail cnt s eof
          else (s, cnt, [], none)
        if w.2.2.2.isSome then w
        else
          let s1 := w.1
          let cnt1 := w.2.1
          let evs1 := w.2.2.1
          let tow := min to0 (data.length - datapos)
          let oldBufLen := s1.buf.length
          let s2 := { s1 with buf := s1.buf ++ (data.drop datapos).take tow }
          if oldBufLen + tow ≠ s2.buf.length then (s2, cnt1, evs1, some .shortCopy)
          else
            let r := flushLoop cbFail eof data fuel { s2 with pos := s2.pos + tow } cnt1
              (datapos + tow)
            (r.1, r.2.1, evs1 ++ r.2.2.1, r.2.2.2)

/-- `savepartReader.flush(data, realLen, eof)` on the `realLen` bytes
just read: run the loop, then flush the buffered block on EOF. -/
def flush (cbFail : ℕ → SPEvent → Bool) (eof : Bool) (chunk : List ℕ)
    (s : SPState) (cnt : ℕ) : SPState × ℕ × List SPEvent × Option SPErr :=
  let r := flushLoop cbFail eof chunk (chunk.length + 2) s cnt 0
  if r.2.2.2.isSome then r
  else if eof then
    let w := writeBlock cbFail r.2.1 r.1 eof
    (w.1, w.2.1, r.2.2.1 ++ w.2.2.1, w.2.2.2)
  else r

/-- What one call of the underlying reader `s.R.Read` produced: `n`
bytes, or `n` bytes together with `io.EOF`.  (Underlying non-EOF
errors are returned unchanged by `Read` and do not touch the state;
they are not needed by the claims.) -/
inductive URead where
  | ok (chunk : List ℕ)
  | eofR (chunk : List ℕ)
  deriving DecidableEq, Repr

/-- What `savepartReader.Read` returned: `(n, nil)`, `(n, io.EOF)`
(the EOF-path flush error is reported to `onError` only), or
`(n, err)` for a flush error on the normal path. -/
inductive ReadResult where
  | bytes (n : ℕ)
  | eofOut (n : ℕ)
  | errored (n : ℕ) (e : SPErr)
  deriving DecidableEq, Repr

/-- `savepartReader.Read` for one underlying read. -/
def readStep (cbFail : ℕ → SPEvent → Bool) (s : SPState) (cnt : ℕ) :
    URead → SPState × ℕ × List SPEvent × ReadResult
  | .ok chunk =>
    let r := flush cbFail false chunk s cnt
    (r.1, r.2.1, r.2.2.1,
      match r.2.2.2 with
      | some e => .errored chunk.length e
      | none => .bytes chunk.length)
  | .eofR chunk =>
    let r := flush cbFail true chunk s cnt
    (r.1, r.2.1, r.2.2.1, .eofOut chunk.length)

/-- `savepartReader.Close`: the close callback receives the `eof` flag
observed so far. -/
def savepartCloseFlag (s : SPState) : Bool :=
  s.eofFlag

/-- Feed a sequence of underlying reads through `Read`, collecting all
callback invocations and per-read results. -/
def runReads (cbFail : ℕ → SPEvent → Bool) :
    SPState → ℕ → List URead → SPState × ℕ × List SPEvent × List ReadResult
  | s, cnt, [] => (s, cnt, [], [])
  | s, cnt, r :: rs =>
    match readStep cbFail s cnt r with
    | (s1, cnt1, evs1, res1) =>
      match runReads cbFail s1 cnt1 rs with
      | (s2, cnt2, evs2, ress) => (s2, cnt2, evs1 ++ evs2, res1 :: ress)

/-- The always-succeeding callback oracle. -/
def cbOk : ℕ → SPEvent → Bool := fun _ _ => false

/-- A callback oracle that fails exactly on its first invocation. -/
def cbOnce : ℕ → SPEvent → Bool := fun i _ => decide (i = 0)

/-! ## Claims C1, C8, C10, C4 -/

/-- C1.  `BlockGroup(have, want)` does not return its groups in
ascending order of first index: for `have = {2}`, `want = {0, 1, 2}`
it returns the hit group `[2]` before the miss group `[0, 1]`.  The
comparator `int(a.BlockRange[0] - b.BlockRange[0])` wraps the
subtraction in `uint32` and converts to a 64-bit `int`, so it is never
negative and the sort never swaps anything; the hit groups always stay
in front of the miss groups. -/
theorem blockGroup_not_sorted_on_2_012 :
    BlockGroup {2} {0, 1, 2} = [Block.mk true [2], Block.mk false [0, 1]] ∧
    (BlockGroup {2} {0, 1, 2}).map (fun blk => blk.BlockRange.headD 0) = [2, 0] ∧
    ¬ List.Sorted (· ≤ ·)
      ((BlockGroup {2} {0, 1, 2}).map (fun blk => blk.BlockRange.headD 0)) := by
  refine ⟨by rfl, by rfl, ?_⟩
  decide

/-- C8, counterexample.  With `first = 1 > 0 = last` the `FullHit` scan
loop never runs and returns `true` while `PartHit` returns `false`, so
`FullHit(a, b, bm) ⇒ PartHit(a, b, bm)` fails for unordered bounds. -/
theorem fullHit_partHit_fails_when_unordered :
    FullHit 1 0 (∅ : Finset ℕ) = some true ∧
    PartHit 1 0 (∅ : Finset ℕ) = some false := by
  constructor <;> decide

/-- C8, amended: for ordered bounds `a ≤ b`, whenever `FullHit`
terminates with `true`, `PartHit` terminates with `true`; and whenever
`PartHit` terminates with `false`, `FullHit` terminates with `false`. -/
theorem fullHit_implies_partHit (a b : ℕ) (bm : Finset ℕ) (hab : a ≤ b) :
    (FullHit a b bm = some true → PartHit a b bm = some true) ∧
    (PartHit a b bm = some false → FullHit a b bm = some false) := by
  constructor
  · intro h
    rw [FullHit, fullHitAux, if_pos hab] at h
    rw [PartHit, partHitAux, if_pos hab]
    by_cases hm : a ∈ bm
    · rw [if_pos hm]
    · rw [if_neg hm] at h
      exact absurd h (by decide)
  · intro h
    rw [PartHit, partHitAux, if_pos hab] at h
    rw [FullHit, fullHitAux, if_pos hab]
    by_cases hm : a ∈ bm
    · rw [if_pos hm] at h
      exact absurd h (by decide)
    · rw [if_neg hm]

/-- C8 witness: the amended implication applied at `a = 0 ≤ 1 = b`,
`bm = {0, 1}`. -/
theorem fullHit_implies_partHit_witness :
    (0 : ℕ) ≤ 1 ∧
    ((FullHit 0 1 ({0, 1} : Finset ℕ) = some true →
        PartHit 0 1 ({0, 1} : Finset ℕ) = some true) ∧
      (PartHit 0 1 ({0, 1} : Finset ℕ) = some false →
        FullHit 0 1 ({0, 1} : Finset ℕ) = some false)) :=
  ⟨by decide, fullHit_implies_partHit 0 1 {0, 1} (by decide)⟩

/-- C10.  `Metadata.HasComplete` divides `Size` by `BlockSize` with no
zero guard: a non-vary record with positive `Size` and zero
`BlockSize` panics with an integer division by zero; the metadata
literal built by `Caching.doProxy` for a fresh object leaves
`BlockSize` zero and so trips this for any positive object size. -/
theorem hasComplete_divides_by_zero :
    (∀ m : Metadata, m.IsVary = false → 0 < m.Size → m.BlockSize = 0 →
      m.HasComplete = .error GoPanic.divideByZero) ∧
    (∀ s : ℕ, 0 < s →
      (doProxyFreshMetadata s).HasComplete = .error GoPanic.divideByZero) := by
  constructor
  · intro m hv hs hb
    rw [Metadata.HasComplete, hv]
    simp only [Bool.false_eq_true, if_false]
    rw [if_neg (by omega), if_pos hb]
  · intro s hs
    rw [Metadata.HasComplete]
    have hv : (doProxyFreshMetadata s).IsVary = false := by
      simp [Metadata.IsVary, doProxyFreshMetadata, FlagVaryIndex]
    rw [hv]
    simp only [Bool.false_eq_true, if_false]
    rw [if_neg (by simp [doProxyFreshMetadata]; omega), if_pos (by simp [doProxyFreshMetadata])]

/-- C10 witness: the divide-by-zero at a concrete record
(`Size = 1`, `BlockSize = 0`) and at `doProxyFreshMetadata 1`. -/
theorem hasComplete_divides_by_zero_witness :
    (Metadata.mk 0 0 ∅ 200 1 0 []).HasComplete = .error GoPanic.divideByZero ∧
    (doProxyFreshMetadata 1).HasComplete = .error GoPanic.divideByZero :=
  ⟨hasComplete_divides_by_zero.1 (Metadata.mk 0 0 ∅ 200 1 0 []) (by decide) (by decide) rfl,
    hasComplete_divides_by_zero.2 1 (by decide)⟩

/-- C4, counterexample.  An expired record that carries an `ETag` but
is *incomplete* (`Size = 2`, `BlockSize = 1`, only part 0 present)
takes the discard branch: `Lookup` sets `REVALIDATE_MISS`, discards
the record and returns false — not `REVALIDATE_HIT` as claimed. -/
theorem revalidateLookup_incomplete_counterexample :
    hasExpired (Metadata.mk 0 1 {0} 200 2 0 [("ETag".toList, "v1".toList)]) 1 = true ∧
    hasConditionHeader (Metadata.mk 0 1 {0} 200 2 0 [("ETag".toList, "v1".toList)]).Headers
      = true ∧
    RevalidateProcessor.Lookup
        (some (Metadata.mk 0 1 {0} 200 2 0 [("ETag".toList, "v1".toList)])) 1 =
      .ok { hit := false, revalidate := true,
            cacheStatus := some CacheStatus.revalidateMiss, discarded := true } ∧
    CacheStatus.revalidateMiss ≠ CacheStatus.revalidateHit := by
  refine ⟨by decide, by decide, by decide, by decide⟩

/-- C4, amended: for an expired record that is **complete**
(`HasComplete` returns true) and stores at least one of
`ETag`/`Last-Modified`, `Lookup` sets `revalidate = true`, sets the
cache status to `REVALIDATE_HIT`, returns false, and does not discard
the record. -/
theorem revalidateLookup_expired_complete_with_validators (m : Metadata) (now : ℤ)
    (hexp : hasExpired m now = true)
    (hcomp : m.HasComplete = .ok true)
    (hcond : hasConditionHeader m.Headers = true) :
    RevalidateProcessor.Lookup (some m) now =
      .ok { hit := false, revalidate := true,
            cacheStatus := some CacheStatus.revalidateHit, discarded := false } := by
  rw [RevalidateProcessor.Lookup, hexp]
  simp only [Bool.not_true, Bool.false_eq_true, if_false]
  rw [hcomp]
  simp only [hcond]
  rfl

/-- C4 witness: the amended statement at a concrete expired, complete
record carrying an `ETag`. -/
theorem revalidateLookup_expired_complete_witness :
    RevalidateProcessor.Lookup
        (some (Metadata.mk 0 1 {0, 1} 200 2 0 [("ETag".toList, "v1".toList)])) 1 =
      .ok { hit := false, revalidate := true,
            cacheStatus := some CacheStatus.revalidateHit, discarded := false } :=
  revalidateLookup_expired_complete_with_validators
    (Metadata.mk 0 1 {0, 1} 200 2 0 [("ETag".toList, "v1".toList)]) 1
    (by decide) (by decide) (by decide)

/-! ### Header get/set lemmas -/

/-- `find?` commutes with a `filter` whose predicate is implied by the
search predicate. -/
theorem find_filter_of_imp {α : Type} (l : List α) (p q : α → Bool)
    (himp : ∀ x, p x = true → q x = true) :
    (l.filter q).find? p = l.find? p := by
  induction l with
  | nil => rfl
  | cons a t ih =>
    by_cases hq : q a = true
    · rw [List.filter_cons_of_pos hq]
      by_cases hp : p a = true
      · rw [List.find?_cons_of_pos _ hp, List.find?_cons_of_pos _ hp]
      · rw [List.find?_cons_of_neg _ (by simp [hp]),
          List.find?_cons_of_neg _ (by simp [hp]), ih]
    · rw [List.filter_cons_of_neg (by simp [hq])]
      have hp : ¬ p a = true := fun hpa => hq (himp a hpa)
      rw [List.find?_cons_of_neg _ (by simp [hp]), ih]

/-- Reading back the key just set returns the value just set. -/
theorem headerGet_headerSet_same (h : Header) (k v : List Char) :
    headerGet (headerSet h k v) k = v := by
  unfold headerGet headerSet
  rw [List.find?_append]
  have h1 : (h.filter fun kv => kv.1 ≠ k).find? (fun kv => kv.1 = k) = none := by
    rw [List.find?_eq_none]
    intro x hx
    have hmem := List.of_mem_filter hx
    simp only [decide_eq_true_eq]
    simpa using hmem
  rw [h1]
  simp [List.find?]

/-- Setting one key leaves the values of other keys unchanged. -/
theorem headerGet_headerSet_other (h : Header) (k k' v : List Char) (hne : k' ≠ k) :
    headerGet (headerSet h k v) k' = headerGet h k' := by
  unfold headerGet headerSet
  rw [List.find?_append]
  have h2 : ([(k, v)].find? fun kv => kv.1 = k') = none := by
    have hkk : ¬ (k = k') := fun he => hne he.symm
    simp [List.find?, hkk]
  have h1 : (h.filter fun kv => kv.1 ≠ k).find? (fun kv => kv.1 = k') =
      h.find? (fun kv => kv.1 = k') := by
    refine find_filter_of_imp h _ _ ?_
    intro x hx
    simp only [decide_eq_true_eq] at hx
    simp [hx, hne]
  rw [h1, h2, Option.or_none]

/-! ### Claim C5 -/

/-- C5, counterexample.  With no `Range` header the status code of the
assembled response is the stored `c.md.Code`, not 200: a cached record
with `Code = 404` (the error-code caching path stores such records)
replays as 404. -/
theorem lazilyRespond_code_counterexample :
    (lazilyRespondMeta 404 100 [] [] 0 99).1 = 404 ∧ (404 : ℕ) ≠ 200 ∧ (404 : ℕ) ≠ 206 := by
  refine ⟨by rfl, by decide, by decide⟩

/-- C5, amended: the status is 206 when the original request carried a
`Range` header and the stored metadata code otherwise; `Content-Length`
is always set to `end − start + 1`; when `Range` was carried,
`Content-Range` is set to `bytes start-end/size`. -/
theorem lazilyRespond_status_headers (mdCode mdSize : ℕ) (mdHeaders : Header)
    (rawRange : List Char) (start stop : ℤ) :
    ((lazilyRespondMeta mdCode mdSize mdHeaders rawRange start stop).1
      = if rawRange ≠ [] then 206 else mdCode) ∧
    (lazilyRespondMeta mdCode mdSize mdHeaders rawRange start stop).2.1
      = stop - start + 1 ∧
    headerGet (lazilyRespondMeta mdCode mdSize mdHeaders rawRange start stop).2.2
      "Content-Length".toList = goItoa (stop - start + 1) ∧
    (rawRange ≠ [] →
      headerGet (lazilyRespondMeta mdCode mdSize mdHeaders rawRange start stop).2.2
        "Content-Range".toList =
        "bytes ".toList ++ goItoa start ++ "-".toList ++ goItoa stop
          ++ "/".toList ++ natDigits mdSize) := by
  refine ⟨rfl, rfl, headerGet_headerSet_same _ _ _, fun hr => ?_⟩
  show headerGet (headerSet (if rawRange ≠ [] then _ else mdHeaders) _ _) _ = _
  rw [headerGet_headerSet_other _ _ _ _ (by decide), if_pos hr]
  exact headerGet_headerSet_same _ _ _

/-- C5 witness: the amended statement at concrete inputs, both with and
without a `Range` header. -/
theorem lazilyRespond_status_headers_witness :
    ((lazilyRespondMeta 200 100 [] "bytes=0-9".toList 0 9).1 = if "bytes=0-9".toList ≠ [] then 206 else 200) ∧
    (lazilyRespondMeta 200 100 [] "bytes=0-9".toList 0 9).2.1 = 9 - 0 + 1 ∧
    headerGet (lazilyRespondMeta 200 100 [] "bytes=0-9".toList 0 9).2.2
      "Content-Length".toList = goItoa (9 - 0 + 1) ∧
    ("bytes=0-9".toList ≠ [] →
      headerGet (lazilyRespondMeta 200 100 [] "bytes=0-9".toList 0 9).2.2
        "Content-Range".toList =
        "bytes ".toList ++ goItoa 0 ++ "-".toList ++ goItoa 9
          ++ "/".toList ++ natDigits 100) :=
  lazilyRespond_status_headers 200 100 [] "bytes=0-9".toList 0 9

/-! ### Claim C7 -/

/-- The scan loop of `SupportsEncoding` accepts exactly when some entry
with positive q is `*`, or is exactly `identity` while the stored
encoding is empty or `identity`, or (for non-`identity` entries)
matches the stored encoding case-insensitively. -/
theorem supportsEncodingLoop_iff (E : List Char) (l : List AcceptEncoding) :
    supportsEncodingLoop E l = true ↔
      ∃ e ∈ l, 0 < e.Q ∧
        (e.Value = "*".toList ∨
          (e.Value = "identity".toList ∧ (E = [] ∨ E = "identity".toList)) ∨
          (e.Value ≠ "identity".toList ∧ goEqualFold e.Value E = true)) := by
  induction l with
  | nil => simp [supportsEncodingLoop]
  | cons a t ih =>
    rw [supportsEncodingLoop]
    by_cases hq : a.Q ≤ 0
    · rw [if_pos hq, ih]
      constructor
      · rintro ⟨e, he, hc⟩
        exact ⟨e, List.mem_cons_of_mem _ he, hc⟩
      · rintro ⟨e, he, hc⟩
        rcases List.mem_cons.mp he with rfl | he'
        · exact absurd hc.1 (not_lt.mpr hq)
        · exact ⟨e, he', hc⟩
    · rw [if_neg hq]
      have hq' : 0 < a.Q := not_le.mp hq
      by_cases hstar : a.Value = "*".toList
      · rw [if_pos hstar]
        constructor
        · intro _
          exact ⟨a, List.mem_cons_self a t, hq', Or.inl hstar⟩
        · intro _
          rfl
      · rw [if_neg hstar]
        by_cases hid : a.Value = "identity".toList
        · rw [if_pos hid]
          by_cases hE : E = [] ∨ E = "identity".toList
          · rw [if_pos hE]
            constructor
            · intro _
              exact ⟨a, List.mem_cons_self a t, hq', Or.inr (Or.inl ⟨hid, hE⟩)⟩
            · intro _
              rfl
          · rw [if_neg hE, ih]
            constructor
            · rintro ⟨e, he, hc⟩
              exact ⟨e, List.mem_cons_of_mem _ he, hc⟩
            · rintro ⟨e, he, hc⟩
              rcases List.mem_cons.mp he with rfl | he'
              · rcases hc.2 with h1 | h2 | h3
                · exact absurd h1 hstar
                · exact absurd h2.2 hE
                · exact absurd hid h3.1
              · exact ⟨e, he', hc⟩
        · rw [if_neg hid]
          by_cases hf : goEqualFold a.Value E = true
          · rw [if_pos hf]
            constructor
            · intro _
              exact ⟨a, List.mem_cons_self a t, hq', Or.inr (Or.inr ⟨hid, hf⟩)⟩
            · intro _
              rfl
          · rw [if_neg hf, ih]
            constructor
            · rintro ⟨e, he, hc⟩
              exact ⟨e, List.mem_cons_of_mem _ he, hc⟩
            · rintro ⟨e, he, hc⟩
              rcases List.mem_cons.mp he with rfl | he'
              · rcases hc.2 with h1 | h2 | h3
                · exact absurd h1 hstar
                · exact absurd h2.1 hid
                · exact absurd h3.2 hf
              · exact ⟨e, he', hc⟩

/-- C7, counterexample.  For the parsed header `identity` and a stored
variant with empty `Content-Encoding`, `SupportsEncoding` accepts,
although no entry with positive q equals the empty encoding
case-insensitively or is `*` — so acceptance is not equivalent to the
claimed condition. -/
theorem supportsEncoding_identity_counterexample :
    SupportsEncoding (ParseAcceptEncoding "identity".toList) [] = true ∧
    (∀ e ∈ ParseAcceptEncoding "identity".toList,
      ¬(0 < e.Q ∧ (goEqualFold e.Value [] = true ∨ e.Value = "*".toList))) := by
  constructor
  · decide
  · decide

/-- C7, amended: a stored variant with `Content-Encoding = E` is judged
acceptable iff either the parsed list is empty and `E` is empty or
`identity`, or some entry with `q > 0` has value `*`, or has value
exactly `identity` while `E` is empty or `identity`, or has a value
other than `identity` equal to `E` case-insensitively.  In particular
`gzip;q=0, br;q=0.9` rejects a `gzip` variant and accepts a `br`
variant. -/
theorem supportsEncoding_spec :
    (∀ (l : List AcceptEncoding) (E : List Char),
      SupportsEncoding l E = true ↔
        ((l = [] ∧ (E = [] ∨ E = "identity".toList)) ∨
          ∃ e ∈ l, 0 < e.Q ∧
            (e.Value = "*".toList ∨
              (e.Value = "identity".toList ∧ (E = [] ∨ E = "identity".toList)) ∨
              (e.Value ≠ "identity".toList ∧ goEqualFold e.Value E = true)))) ∧
    SupportsEncoding (ParseAcceptEncoding "gzip;q=0, br;q=0.9".toList) "gzip".toList
      = false ∧
    SupportsEncoding (ParseAcceptEncoding "gzip;q=0, br;q=0.9".toList) "br".toList
      = true := by
  refine ⟨?_, by decide, by decide⟩
  intro l E
  cases l with
  | nil => simp [SupportsEncoding]
  | cons a t =>
    rw [SupportsEncoding, if_neg (by simp)]
    rw [supportsEncodingLoop_iff]
    simp

/-! ### Claim C9 -/

/-- C9.  When a revalidation round trip returns 304 and the original
request carried no `Range` header, `PreRequest` stashed nothing under
`rawRangeKey`, so the unguarded `.(string)` assertion in
`RevalidateProcessor.revalidate` hits a nil value and panics; a
revalidated request that did carry a `Range` header (and had a
condition header, so `PreRequest` stashed the raw range) reaches the
cached-body replay path without panicking. -/
theorem revalidate304_panics_without_range :
    (∀ (mdHeaders : Header) (mdCode mdSize : ℕ),
      preRequestStashedRange true mdHeaders mdCode [] = none ∧
      revalidateOn304 none mdSize = .error GoPanic.nilTypeAssertion) ∧
    (∀ (rawRange : List Char) (mdHeaders : Header) (mdCode mdSize : ℕ),
      rawRange ≠ [] →
      (headerGet mdHeaders "ETag".toList ≠ [] ∨
        headerGet mdHeaders "Last-Modified".toList ≠ [] ∨ 300 ≤ mdCode) →
      preRequestStashedRange true mdHeaders mdCode rawRange = some rawRange ∧
      ∃ out, revalidateOn304 (some rawRange) mdSize = .ok out) := by
  constructor
  · intro mdHeaders mdCode mdSize
    constructor
    · by_cases hc : headerGet mdHeaders "ETag".toList ≠ [] ∨
          headerGet mdHeaders "Last-Modified".toList ≠ [] ∨ 300 ≤ mdCode
      · simp [preRequestStashedRange, hc]
      · simp [preRequestStashedRange, hc]
    · rfl
  · intro rawRange mdHeaders mdCode mdSize hr hcond
    constructor
    · simp only [preRequestStashedRange, if_true]
      rw [if_neg (not_not_intro hcond), if_pos hr]
    · cases hsp : SingleParse rawRange mdSize with
      | error e =>
        refine ⟨.rangeNotSatisfiable, ?_⟩
        show (goStringAssert (some rawRange) >>= _) = _
        rw [goStringAssert]
        show (if rawRange ≠ [] then _ else _) = _
        rw [if_pos hr, hsp]
        rfl
      | ok rng =>
        refine ⟨.replay rng.Start rng.End, ?_⟩
        show (goStringAssert (some rawRange) >>= _) = _
        rw [goStringAssert]
        show (if rawRange ≠ [] then _ else _) = _
        rw [if_pos hr, hsp]
        rfl

/-- C9 witness: the second part applied at a concrete request with
`Range: bytes=0-4`, an `ETag`, and size 10 (and the first at concrete
metadata). -/
theorem revalidate304_panics_without_range_witness :
    (preRequestStashedRange true [] 200 [] = none ∧
      revalidateOn304 none 10 = .error GoPanic.nilTypeAssertion) ∧
    (preRequestStashedRange true [("ETag".toList, "v1".toList)] 200 "bytes=0-4".toList
        = some "bytes=0-4".toList ∧
      ∃ out, revalidateOn304 (some "bytes=0-4".toList) 10 = .ok out) :=
  ⟨revalidate304_panics_without_range.1 [] 200 10,
    revalidate304_panics_without_range.2 "bytes=0-4".toList
      [("ETag".toList, "v1".toList)] 200 10 (by decide) (by decide)⟩

/-! ### Decimal rendering and parsing lemmas (towards claim C6) -/

/-- For digit values, `digitChar` produces a digit character with the
expected code point. -/
theorem digitChar_facts :
    ∀ d : ℕ, d < 10 → goIsDigit (digitChar d) = true ∧ (digitChar d).toNat = 48 + d := by
  decide

/-- A digit character is none of the delimiter characters the Range
grammar uses, and is not whitespace. -/
theorem goIsDigit_ne (c : Char) (h : goIsDigit c = true) :
    c ≠ '-' ∧ c ≠ ',' ∧ c ≠ '=' ∧ c ≠ '+' ∧ isGoSpace c = false := by
  rw [goIsDigit, Bool.and_eq_true, decide_eq_true_eq, decide_eq_true_eq] at h
  obtain ⟨h1, h2⟩ := h
  have hne : ∀ x : Char, x.toNat < 48 → c ≠ x := by
    intro x hx he
    rw [he] at h1
    omega
  refine ⟨hne '-' (by decide), hne ',' (by decide), ?_, hne '+' (by decide), ?_⟩
  · intro he
    rw [he] at h1 h2
    revert h1 h2
    decide
  · have hs := hne ' ' (by decide)
    have h9 := hne (Char.ofNat 9) (by decide)
    have h10 := hne (Char.ofNat 10) (by decide)
    have h11 := hne (Char.ofNat 11) (by decide)
    have h12 := hne (Char.ofNat 12) (by decide)
    have h13 := hne (Char.ofNat 13) (by decide)
    simp [isGoSpace, hs, h9, h10, h11, h12, h13]

/-- The fuelled digit renderer is correct when the fuel covers the
number: all output characters are digits, the output is nonempty, and
folding the digits back recovers the number. -/
theorem natDigitsAux_spec :
    ∀ (fuel n : ℕ), n < 10 ^ fuel → 0 < fuel →
      (∀ c ∈ natDigitsAux fuel n, goIsDigit c = true) ∧
        natDigitsAux fuel n ≠ [] ∧ digitsVal (natDigitsAux fuel n) = n := by
  intro fuel
  induction fuel with
  | zero => intro n _ h0; omega
  | succ f ih =>
    intro n hn _
    rw [natDigitsAux]
    by_cases hsmall : n < 10
    · rw [if_pos hsmall]
      refine ⟨?_, by simp, ?_⟩
      · intro c hc
        rw [List.mem_singleton] at hc
        rw [hc]
        exact (digitChar_facts n hsmall).1
      · rw [digitsVal, List.foldl_cons, List.foldl_nil, (digitChar_facts n hsmall).2]
        omega
    · rw [if_neg hsmall]
      have hf : 0 < f := by
        by_contra h0
        have : f = 0 := by omega
        rw [this] at hn
        simp at hn
        omega
      have hdiv : n / 10 < 10 ^ f := by
        rw [Nat.div_lt_iff_lt_mul (by norm_num)]
        calc n < 10 ^ (f + 1) := hn
        _ = 10 ^ f * 10 := by ring
      obtain ⟨hall, hne, hval⟩ := ih (n / 10) hdiv hf
      have hmod : n % 10 < 10 := Nat.mod_lt _ (by norm_num)
      refine ⟨?_, ?_, ?_⟩
      · intro c hc
        rcases List.mem_append.mp hc with hc1 | hc2
        · exact hall c hc1
        · rw [List.mem_singleton] at hc2
          rw [hc2]
          exact (digitChar_facts _ hmod).1
      · simp
      · rw [digitsVal, List.foldl_append, List.foldl_cons, List.foldl_nil]
        rw [digitsVal] at hval
        rw [hval, (digitChar_facts _ hmod).2]
        omega

/-- `natDigits` facts: digits only, nonempty, and value round trip. -/
theorem natDigits_spec (n : ℕ) :
    (∀ c ∈ natDigits n, goIsDigit c = true) ∧
      natDigits n ≠ [] ∧ digitsVal (natDigits n) = n := by
  refine natDigitsAux_spec (n + 1) n ?_ (by omega)
  calc n < 10 ^ n := Nat.lt_pow_self (by norm_num) n
  _ ≤ 10 ^ (n + 1) := Nat.pow_le_pow_right (by norm_num) (by omega)

/-- A list whose elements all fail the predicate is untouched by
`dropWhile`. -/
theorem dropWhile_eq_self_of_all_false {α : Type} (p : α → Bool) (l : List α)
    (h : ∀ c ∈ l, p c = false) : l.dropWhile p = l := by
  cases l with
  | nil => rfl
  | cons a t =>
    rw [List.dropWhile_cons, h a (List.mem_cons_self a t)]
    simp

/-- `strings.TrimSpace` leaves a string with no whitespace characters
unchanged. -/
theorem goTrimSpace_eq_self (s : List Char) (h : ∀ c ∈ s, isGoSpace c = false) :
    goTrimSpace s = s := by
  rw [goTrimSpace, dropWhile_eq_self_of_all_false _ _ h,
    dropWhile_eq_self_of_all_false _ _ (fun c hc => h c (List.mem_reverse.mp hc)),
    List.reverse_reverse]

/-- `strconv.ParseInt` inverts the decimal rendering of any `int64`
natural. -/
theorem goParseInt64_natDigits (n : ℕ) (h : n ≤ 2 ^ 63 - 1) :
    goParseInt64 (natDigits n) = some (n : ℤ) := by
  obtain ⟨hall, hne, hval⟩ := natDigits_spec n
  obtain ⟨c, t, hct⟩ := List.exists_cons_of_ne_nil hne
  have hc : goIsDigit c = true := hall c (by rw [hct]; exact List.mem_cons_self c t)
  obtain ⟨hminus, _, _, hplus, _⟩ := goIsDigit_ne c hc
  have hallb : (natDigits n).all goIsDigit = true := List.all_eq_true.mpr hall
  simp only [goParseInt64, hct, List.headD_cons, List.tail_cons]
  rw [if_neg hminus]
  rw [decide_eq_false hplus, decide_eq_false hminus]
  rw [if_neg (show ¬(((false : Bool) || false) = true) by simp)]
  rw [← hct, if_neg hne, if_pos hallb, hval]
  have hb : -(2 ^ 63 : ℤ) ≤ 1 * (n : ℤ) ∧ 1 * (n : ℤ) ≤ 2 ^ 63 - 1 := by
    constructor <;> omega
  rw [if_pos hb]
  simp

/-- `goParseInt64` rejects the empty string. -/
theorem goParseInt64_nil : goParseInt64 [] = none := rfl

/-- The characters of a digit string avoid the Range-grammar
delimiters and whitespace. -/
theorem natDigits_chars (n : ℕ) :
    '-' ∉ natDigits n ∧ ',' ∉ natDigits n ∧ '=' ∉ natDigits n ∧
      ∀ c ∈ natDigits n, isGoSpace c = false := by
  obtain ⟨hall, -, -⟩ := natDigits_spec n
  refine ⟨fun hm => ?_, fun hm => ?_, fun hm => ?_, fun c hc => ?_⟩
  · exact (goIsDigit_ne _ (hall _ hm)).1 rfl
  · exact (goIsDigit_ne _ (hall _ hm)).2.1 rfl
  · exact (goIsDigit_ne _ (hall _ hm)).2.2.1 rfl
  · exact (goIsDigit_ne _ (hall _ hc)).2.2.2.2

/-- The rendered text of a byte-range-spec contains a `-`, no comma,
no `=`, and no whitespace. -/
theorem renderSpec_chars (sp : ByteRangeSpec) :
    ',' ∉ renderSpec sp ∧ '=' ∉ renderSpec sp ∧
      (∀ c ∈ renderSpec sp, isGoSpace c = false) ∧ '-' ∈ renderSpec sp := by
  cases sp with
  | both a b =>
    obtain ⟨hda, hca, hea, hsa⟩ := natDigits_chars a
    obtain ⟨hdb, hcb, heb, hsb⟩ := natDigits_chars b
    rw [renderSpec]
    refine ⟨?_, ?_, ?_, by simp⟩
    · simp only [List.mem_append, List.mem_cons]
      rintro (h | h | h)
      · exact hca h
      · exact absurd h.symm (by decide)
      · exact hcb h
    · simp only [List.mem_append, List.mem_cons]
      rintro (h | h | h)
      · exact hea h
      · exact absurd h.symm (by decide)
      · exact heb h
    · intro c hc
      rcases List.mem_append.mp hc with h | h
      · exact hsa c h
      · rcases List.mem_cons.mp h with rfl | h
        · decide
        · exact hsb c h
  | fromStart a =>
    obtain ⟨hda, hca, hea, hsa⟩ := natDigits_chars a
    rw [renderSpec]
    refine ⟨?_, ?_, ?_, by simp⟩
    · simp only [List.mem_append, List.mem_singleton]
      rintro (h | h)
      · exact hca h
      · exact absurd h.symm (by decide)
    · simp only [List.mem_append, List.mem_singleton]
      rintro (h | h)
      · exact hea h
      · exact absurd h.symm (by decide)
    · intro c hc
      rcases List.mem_append.mp hc with h | h
      · exact hsa c h
      · rcases List.mem_singleton.mp h with rfl
        decide
  | suffix n =>
    obtain ⟨hdn, hcn, hen, hsn⟩ := natDigits_chars n
    rw [renderSpec]
    refine ⟨?_, ?_, ?_, List.mem_cons_self _ _⟩
    · simp only [List.mem_cons]
      rintro (h | h)
      · exact absurd h.symm (by decide)
      · exact hcn h
    · simp only [List.mem_cons]
      rintro (h | h)
      · exact absurd h.symm (by decide)
      · exact hen h
    · intro c hc
      rcases List.mem_cons.mp hc with rfl | h
      · decide
      · exact hsn c h

/-- `intercalate` of a two-element list. -/
theorem intercalate_pair {α : Type} (s : α) (x y : List α) :
    List.intercalate [s] [x, y] = x ++ s :: y := by
  simp [List.intercalate]

/-- Splitting `x ++ '-' :: y` on `-` recovers `[x, y]` when neither
side contains a `-`. -/
theorem splitOn_render_pair (x y : List Char) (hx : '-' ∉ x) (hy : '-' ∉ y) :
    (x ++ '-' :: y).splitOn '-' = [x, y] := by
  rw [← intercalate_pair '-' x y]
  refine List.splitOn_intercalate [x, y] '-' ?_ (by simp)
  intro l hl
  rcases List.mem_cons.mp hl with rfl | hl
  · exact hx
  · rcases List.mem_singleton.mp (by simpa using hl) with rfl
    exact hy

/-- `clampCheckRange` drops a part whose start lies beyond the clamped
end or below zero. -/
theorem clampCheckRange_none (size64 start end0 : ℤ)
    (h : (if end0 ≥ size64 then size64 - 1 else end0) < start ∨ start < 0) :
    clampCheckRange size64 start end0 = none := by
  rw [clampCheckRange, if_pos]
  rcases h with h | h
  · exact Or.inl h
  · exact Or.inr h

/-- A byte-range-spec whose denoted positions are disjoint from the
object (its denotation is empty) is dropped by the parser loop. -/
theorem parsePart_renderSpec_none (size : ℕ) (sp : ByteRangeSpec)
    (hb : specBound sp = true) (hden : specDenotes size sp = ∅) :
    parsePart ((size : ℕ) : ℤ) (renderSpec sp) = none := by
  obtain ⟨-, -, hsp, hdash⟩ := renderSpec_chars sp
  have htrim : goTrimSpace (renderSpec sp) = renderSpec sp := goTrimSpace_eq_self _ hsp
  cases sp with
  | both a b =>
    rw [specBound, Bool.and_eq_true, decide_eq_true_eq, decide_eq_true_eq] at hb
    have hmem := Finset.eq_empty_iff_forall_not_mem.mp hden a
    simp only [specDenotes, Finset.mem_filter, Finset.mem_range] at hmem
    obtain ⟨hda, -, -, -⟩ := natDigits_chars a
    obtain ⟨hdb, -, -, -⟩ := natDigits_chars b
    simp only [parsePart]
    rw [htrim, if_neg (not_not_intro hdash)]
    simp only [renderSpec]
    rw [splitOn_render_pair (natDigits a) (natDigits b) hda hdb]
    rw [if_neg (by simp)]
    have hg0 : [natDigits a, natDigits b].getD 0 [] = natDigits a := rfl
    have hg1 : [natDigits a, natDigits b].getD 1 [] = natDigits b := rfl
    rw [hg0, hg1, goParseInt64_natDigits a hb.1, goParseInt64_natDigits b hb.2]
    refine clampCheckRange_none _ _ _ ?_
    left
    split_ifs with hcl <;> omega
  | fromStart a =>
    rw [specBound, decide_eq_true_eq] at hb
    have hmem := Finset.eq_empty_iff_forall_not_mem.mp hden a
    simp only [specDenotes, Finset.mem_filter, Finset.mem_range] at hmem
    obtain ⟨hda, -, -, -⟩ := natDigits_chars a
    simp only [parsePart]
    rw [htrim, if_neg (not_not_intro hdash)]
    simp only [renderSpec]
    rw [splitOn_render_pair (natDigits a) [] hda (by simp)]
    rw [if_neg (by simp)]
    have hg0 : [natDigits a, ([] : List Char)].getD 0 [] = natDigits a := rfl
    have hg1 : [natDigits a, ([] : List Char)].getD 1 [] = [] := rfl
    rw [hg0, hg1, goParseInt64_natDigits a hb, goParseInt64_nil]
    refine clampCheckRange_none _ _ _ ?_
    left
    split_ifs with hcl <;> omega
  | suffix n =>
    rw [specBound, decide_eq_true_eq] at hb
    have hmem := Finset.eq_empty_iff_forall_not_mem.mp hden (size - 1)
    simp only [specDenotes, Finset.mem_filter, Finset.mem_range] at hmem
    obtain ⟨hdn, -, -, -⟩ := natDigits_chars n
    simp only [parsePart]
    rw [htrim, if_neg (not_not_intro hdash)]
    simp only [renderSpec]
    rw [show ('-' :: natDigits n) = [] ++ '-' :: natDigits n from rfl,
      splitOn_render_pair [] (natDigits n) (by simp) hdn]
    rw [if_neg (by simp)]
    have hg0 : [([] : List Char), natDigits n].getD 0 [] = [] := rfl
    have hg1 : [([] : List Char), natDigits n].getD 1 [] = natDigits n := rfl
    rw [hg0, hg1, goParseInt64_nil, goParseInt64_natDigits n hb]
    refine clampCheckRange_none _ _ _ ?_
    split_ifs with hcl <;> omega

/-- A rendered `bytes=` header all of whose byte-range-specs denote
nothing inside the object parses to `ErrRangeHeaderInvalidFormat`. -/
theorem Parse_rendered_error (specs : List ByteRangeSpec) (size : ℕ)
    (hne : specs ≠ [])
    (hb : ∀ sp ∈ specs, specBound sp = true)
    (hout : ∀ sp ∈ specs, specDenotes size sp = ∅) :
    Parse ("bytes=".toList ++ List.intercalate [','] (specs.map renderSpec)) size
      = .error .invalidFormat := by
  have hidx : ("bytes=".toList
      ++ List.intercalate [','] (specs.map renderSpec)).findIdx? (· = '=') = some 5 := rfl
  have hdrop : ("bytes=".toList
      ++ List.intercalate [','] (specs.map renderSpec)).drop (5 + 1)
      = List.intercalate [','] (specs.map renderSpec) := rfl
  have hsplit : (List.intercalate [','] (specs.map renderSpec)).splitOn ','
      = specs.map renderSpec := by
    refine List.splitOn_intercalate _ ',' ?_ (by simp [hne])
    intro l hl
    obtain ⟨sp, hsp, rfl⟩ := List.mem_map.mp hl
    exact (renderSpec_chars sp).1
  have hfm : (specs.map renderSpec).filterMap (parsePart ((size : ℕ) : ℤ)) = [] := by
    rw [List.filterMap_eq_nil_iff]
    intro x hx
    obtain ⟨sp, hsp, rfl⟩ := List.mem_map.mp hx
    exact parsePart_renderSpec_none size sp (hb sp hsp) (hout sp hsp)
  simp only [Parse]
  rw [if_neg (by simp : ¬("bytes=".toList
    ++ List.intercalate [','] (specs.map renderSpec) = []))]
  rw [if_neg (not_not_intro
    (by rw [List.isPrefixOf_iff_prefix]; exact List.prefix_append _ _))]
  simp only [hidx]
  rw [hdrop, hsplit, hfm]
  rw [if_pos rfl]

/-- C6.  A cache-hit request whose `Range` header consists of
byte-range-specs that all denote positions outside `[0, size-1]` of
the cached object fails with 416 and a `Content-Range` header whose
value is exactly `bytes */<size>`. -/
theorem cacheHit_range_outside_416 (specs : List ByteRangeSpec) (size : ℕ)
    (hne : specs ≠ []) (hsize : size < 2 ^ 63)
    (hb : ∀ sp ∈ specs, specBound sp = true)
    (hout : ∀ sp ∈ specs, specDenotes size sp = ∅) :
    cacheHitRangeCheck
        ("bytes=".toList ++ List.intercalate [','] (specs.map renderSpec)) size
      = .error (416, headerSet [] "Content-Range".toList
          ("bytes */".toList ++ natDigits size)) ∧
    headerGet
        (headerSet [] "Content-Range".toList ("bytes */".toList ++ natDigits size))
        "Content-Range".toList
      = "bytes */".toList ++ natDigits size := by
  have hparse := Parse_rendered_error specs size hne hb hout
  have hsingle : SingleParse
      ("bytes=".toList ++ List.intercalate [','] (specs.map renderSpec)) size
      = .error .invalidFormat := by
    rw [SingleParse, hparse]
  refine ⟨?_, headerGet_headerSet_same _ _ _⟩
  rw [cacheHitRangeCheck, hsingle]

set_option maxRecDepth 100000 in
/-- C6 witness: `Range: bytes=5000-6000` against a cached object of
size 1024 (the spec's own example) yields 416 with
`Content-Range: bytes */1024`. -/
theorem cacheHit_range_outside_416_witness :
    cacheHitRangeCheck
        ("bytes=".toList
          ++ List.intercalate [','] ([ByteRangeSpec.both 5000 6000].map renderSpec)) 1024
      = .error (416, headerSet [] "Content-Range".toList
          ("bytes */".toList ++ natDigits 1024)) ∧
    headerGet
        (headerSet [] "Content-Range".toList ("bytes */".toList ++ natDigits 1024))
        "Content-Range".toList
      = "bytes */".toList ++ natDigits 1024 :=
  cacheHit_range_outside_416 [ByteRangeSpec.both 5000 6000] 1024
    (by decide) (by decide) (by decide) (by decide)

/-! ### Correctness of the block-streaming reader (towards claim C2) -/

/-- `writeBlock` on a full, block-aligned buffer with a succeeding
callback: one event carrying the buffer at index `m`, buffer reset. -/
theorem writeBlock_ok_full (cbFail : ℕ → SPEvent → Bool)
    (hcb : ∀ i ev, cbFail i ev = false) (cnt : ℕ) (s : SPState) (eof : Bool)
    (m B : ℕ) (hB : 0 < B) (hbs : s.blockSize = B) (hfull : s.buf.length = B)
    (hpos : s.pos = m * B + B) :
    writeBlock cbFail cnt s eof =
      ({ s with eofFlag := eof, buf := [] }, cnt + 1,
        [⟨s.buf, m % U32, s.pos, eof⟩], none) := by
  have hmod : (s.pos - s.buf.length) / s.blockSize = m := by
    rw [hbs, hfull, hpos, Nat.add_sub_cancel, Nat.mul_div_cancel _ hB]
  simp only [writeBlock]
  rw [if_neg (by omega), if_neg (by omega), hmod, hcb]
  simp

/-- The loop of `flush` with a succeeding callback and skipping
already over: consumes all of `data` past `datapos`, emits exactly the
completed blocks (in ascending index order, each of length `B`, at
block-aligned positions, tagged with the loop's `eof`), and leaves the
trailing bytes buffered. -/
theorem flushLoop_ok (B : ℕ) (hB : 0 < B) (cbFail : ℕ → SPEvent → Bool)
    (hcb : ∀ i ev, cbFail i ev = false) (eof : Bool) (data : List ℕ) :
    ∀ (fuel : ℕ) (s : SPState) (cnt datapos m : ℕ),
      s.skip = false → s.blockSize = B → s.buf.length ≤ B →
      s.pos = m * B + s.buf.length →
      datapos ≤ data.length →
      data.length - datapos + 1 ≤ fuel →
      ∃ (s' : SPState) (evs : List SPEvent),
        flushLoop cbFail eof data fuel s cnt datapos = (s', cnt + evs.length, evs, none) ∧
        s'.skip = false ∧
        s'.blockSize = B ∧
        s'.pos = s.pos + (data.length - datapos) ∧
        (evs.map SPEvent.buf).flatten ++ s'.buf = s.buf ++ data.drop datapos ∧
        s'.buf.length ≤ B ∧
        (¬ (s.buf = [] ∧ data.length ≤ datapos) → s'.buf ≠ []) ∧
        s'.pos = (m + evs.length) * B + s'.buf.length ∧
        (∀ i (h : i < evs.length),
          (evs.get ⟨i, h⟩).bitIdx = (m + i) % U32 ∧ (evs.get ⟨i, h⟩).buf.length = B ∧
          (evs.get ⟨i, h⟩).pos = (m + i + 1) * B ∧ (evs.get ⟨i, h⟩).eof = eof) ∧
        s'.eofFlag = (if evs = [] then s.eofFlag else eof) := by
  intro fuel
  induction fuel with
  | zero =>
    intro s cnt datapos m _ _ _ _ _ hfuel
    omega
  | succ f ih =>
    intro s cnt datapos m hskip hbs hlen hpos hdp hfuel
    by_cases hrem : data.length - datapos = 0
    · refine ⟨s, [], ?_, hskip, hbs, by omega, ?_, hlen, ?_, by simpa using hpos, ?_, by simp⟩
      · simp [flushLoop, hrem]
      · have : data.drop datapos = [] := List.drop_eq_nil_of_le (by omega)
        simp [this]
      · intro hcontra
        exact fun hb => hcontra ⟨hb, by omega⟩
      · intro i h
        exact absurd h (by simp)
    · have hbz : ¬ s.blockSize = 0 := by omega
      simp only [flushLoop]
      rw [if_neg hrem, if_neg hbz, hskip]
      simp only [Bool.false_eq_true, if_false]
      by_cases hfull : s.buf.length = s.blockSize
      · -- a completed block is flushed before more bytes are buffered
        have hpos2 : s.pos = m * B + B := by omega
        rw [if_pos hfull,
          writeBlock_ok_full cbFail hcb cnt s eof m B hB hbs (by omega) hpos2]
        have hfirst : s.pos % s.blockSize = 0 := by
          rw [hbs, hpos2]
          simp [Nat.add_mul_mod_self_right]
        rw [hfirst, hskip]
        set tow := min (s.blockSize - 0) (data.length - datapos) with htow
        have htow1 : 1 ≤ tow := by omega
        have htowB : tow ≤ B := by omega
        have htake : ((data.drop datapos).take tow).length = tow := by
          rw [List.length_take, List.length_drop]
          omega
        simp only [Option.isSome_none, Bool.false_eq_true, if_false, List.nil_append,
          List.length_nil, Nat.zero_add, htake, ne_eq, not_true_eq_false]
        have htow2 : tow ≤ data.length - datapos := by
          rw [htow]
          exact min_le_right _ _
        obtain ⟨s', evs', hrun, hskip', hbs', hpos'', hjoin, hlen', hne', hposm, hevs, heof'⟩ :=
          ih ⟨false, eof, s.pos + tow, s.blockSize, (data.drop datapos).take tow⟩
            (cnt + 1) (datapos + tow) (m + 1) rfl hbs
            (by show ((data.drop datapos).take tow).length ≤ B; rw [htake]; exact htowB)
            (by show s.pos + tow = (m + 1) * B + ((data.drop datapos).take tow).length
                rw [htake, hpos2]; ring)
            (by omega) (by omega)
        have hposX : s'.pos = s.pos + tow + (data.length - (datapos + tow)) := hpos''
        have hjoinX : (List.map SPEvent.buf evs').flatten ++ s'.buf
            = (data.drop datapos).take tow ++ data.drop (datapos + tow) := hjoin
        have hneX : ¬ ((data.drop datapos).take tow = [] ∧ data.length ≤ datapos + tow)
            → s'.buf ≠ [] := hne'
        have heofX : s'.eofFlag = if evs' = [] then eof else eof := heof'
        rw [hrun]
        refine ⟨s', ⟨s.buf, m % U32, s.pos, eof⟩ :: evs', ?_, hskip', hbs', ?_, ?_, hlen', ?_,
          ?_, ?_, ?_⟩
        · simp only [List.singleton_append, List.length_cons]
          have hc : cnt + 1 + evs'.length = cnt + (evs'.length + 1) := by omega
          rw [hc]
        · omega
        · simp only [List.map_cons, List.flatten_cons, List.append_assoc]
          rw [hjoinX]
          show s.buf ++ ((data.drop datapos).take tow ++ data.drop (datapos + tow))
            = s.buf ++ data.drop datapos
          congr 1
          rw [← List.drop_drop]
          exact List.take_append_drop _ _
        · intro _
          refine hneX ?_
          rintro ⟨hb, -⟩
          have := congrArg List.length hb
          rw [htake] at this
          simp at this
          omega
        · simp only [List.length_cons]
          rw [hposm]
          ring
        · intro i h
          cases i with
          | zero =>
            refine ⟨by simp, ?_, ?_, rfl⟩
            · show s.buf.length = B
              omega
            · show s.pos = (m + 0 + 1) * B
              rw [hpos2]
              ring
          | succ j =>
            have hj : j < evs'.length := by simpa using h
            obtain ⟨h1, h2, h3, h4⟩ := hevs j hj
            refine ⟨?_, ?_, ?_, ?_⟩
            · show (evs'.get ⟨j, hj⟩).bitIdx = (m + (j + 1)) % U32
              rw [h1]
              have e : m + 1 + j = m + (j + 1) := by omega
              rw [e]
            · exact h2
            · show (evs'.get ⟨j, hj⟩).pos = (m + (j + 1) + 1) * B
              rw [h3]
              ring
            · exact h4
        · rw [heofX]
          simp
      · -- buffer not yet full: just append bytes up to the block boundary
        have hlt : s.buf.length < B := by omega
        rw [if_neg hfull]
        have hfirst : s.pos % s.blockSize = s.buf.length := by
          rw [hbs, hpos, Nat.mul_comm m B, Nat.mul_add_mod, Nat.mod_eq_of_lt hlt]
        rw [hfirst]
        set tow := min (s.blockSize - s.buf.length) (data.length - datapos) with htow
        have htow1 : 1 ≤ tow := by omega
        have htowB : tow ≤ B - s.buf.length := by omega
        have htow2 : tow ≤ data.length - datapos := by
          rw [htow]
          exact min_le_right _ _
        have htake : ((data.drop datapos).take tow).length = tow := by
          rw [List.length_take, List.length_drop]
          omega
        simp only [Option.isSome_none, Bool.false_eq_true, if_false, List.length_append,
          htake, ne_eq, not_true_eq_false]
        obtain ⟨s', evs', hrun, hskip', hbs', hpos'', hjoin, hlen', hne', hposm, hevs, heof'⟩ :=
          ih ⟨s.skip, s.eofFlag, s.pos + tow, s.blockSize,
              s.buf ++ (data.drop datapos).take tow⟩
            cnt (datapos + tow) m hskip hbs
            (by show (s.buf ++ (data.drop datapos).take tow).length ≤ B
                rw [List.length_append, htake]; omega)
            (by show s.pos + tow = m * B + (s.buf ++ (data.drop datapos).take tow).length
                rw [List.length_append, htake]; omega)
            (by omega) (by omega)
        have hposX : s'.pos = s.pos + tow + (data.length - (datapos + tow)) := hpos''
        have hjoinX : (List.map SPEvent.buf evs').flatten ++ s'.buf
            = (s.buf ++ (data.drop datapos).take tow) ++ data.drop (datapos + tow) := hjoin
        have hneX : ¬ ((s.buf ++ (data.drop datapos).take tow = []) ∧ data.length ≤ datapos + tow)
            → s'.buf ≠ [] := hne'
        have hposmX : s'.pos = (m + evs'.length) * B + s'.buf.length := hposm
        have heofX : s'.eofFlag = if evs' = [] then s.eofFlag else eof := heof'
        rw [hrun]
        refine ⟨s', evs', ?_, hskip', hbs', by omega, ?_, hlen', ?_, hposmX, hevs, heofX⟩
        · rfl
        · rw [hjoinX]
          rw [List.append_assoc]
          congr 1
          rw [← List.drop_drop]
          exact List.take_append_drop _ _
        · intro _
          refine hneX ?_
          rintro ⟨hb, -⟩
          have := congrArg List.length hb
          rw [List.length_append, htake] at this
          simp at this
          omega

/-- `writeBlock` on any block-aligned buffer with a succeeding
callback: nothing happens on an empty buffer (beyond recording the eof
flag); otherwise one event carries the buffer at index `m`. -/
theorem writeBlock_ok_any (cbFail : ℕ → SPEvent → Bool)
    (hcb : ∀ i ev, cbFail i ev = false) (cnt : ℕ) (s : SPState) (eof : Bool)
    (m B : ℕ) (hB : 0 < B) (hbs : s.blockSize = B)
    (hpos : s.pos = m * B + s.buf.length) :
    writeBlock cbFail cnt s eof =
      if s.buf.length = 0 then ({ s with eofFlag := eof }, cnt, [], none)
      else ({ s with eofFlag := eof, buf := [] }, cnt + 1,
        [⟨s.buf, m % U32, s.pos, eof⟩], none) := by
  by_cases h0 : s.buf.length = 0
  · rw [if_pos h0]
    simp only [writeBlock]
    rw [if_pos h0]
  · rw [if_neg h0]
    have hmod : (s.pos - s.buf.length) / s.blockSize = m := by
      rw [hbs, hpos, Nat.add_sub_cancel, Nat.mul_div_cancel _ hB]
    simp only [writeBlock]
    rw [if_neg h0, if_neg (by omega), hmod, hcb]
    simp

/-- `flush` with `eof = false` and a succeeding callback: all bytes of
the chunk are consumed, completed blocks are emitted in ascending
index order with `eof = false`, and the trailing bytes stay
buffered. -/
theorem flush_false_ok (B : ℕ) (hB : 0 < B) (cbFail : ℕ → SPEvent → Bool)
    (hcb : ∀ i ev, cbFail i ev = false) (chunk : List ℕ)
    (s : SPState) (cnt m : ℕ)
    (hskip : s.skip = false) (hbs : s.blockSize = B) (hlen : s.buf.length ≤ B)
    (hpos : s.pos = m * B + s.buf.length) :
    ∃ s' evs,
      flush cbFail false chunk s cnt = (s', cnt + evs.length, evs, none) ∧
      s'.skip = false ∧
      s'.blockSize = B ∧
      s'.pos = s.pos + chunk.length ∧
      (evs.map SPEvent.buf).flatten ++ s'.buf = s.buf ++ chunk ∧
      s'.buf.length ≤ B ∧
      (¬ (s.buf = [] ∧ chunk = []) → s'.buf ≠ []) ∧
      s'.pos = (m + evs.length) * B + s'.buf.length ∧
      (∀ i (h : i < evs.length),
        (evs.get ⟨i, h⟩).bitIdx = (m + i) % U32 ∧ (evs.get ⟨i, h⟩).buf.length = B ∧
        (evs.get ⟨i, h⟩).pos = (m + i + 1) * B ∧ (evs.get ⟨i, h⟩).eof = false) ∧
      s'.eofFlag = (if evs = [] then s.eofFlag else false) := by
  obtain ⟨s', evs, hrun, h1, h2, h3, h4, h5, h6, h7, h8, h9⟩ :=
    flushLoop_ok B hB cbFail hcb false chunk (chunk.length + 2) s cnt 0 m
      hskip hbs hlen hpos (by omega) (by omega)
  refine ⟨s', evs, ?_, h1, h2, by simpa using h3, by simpa using h4, h5, ?_, h7, h8, h9⟩
  · simp only [flush, hrun, Option.isSome_none, Bool.false_eq_true, if_false]
  · intro hns
    refine h6 ?_
    rintro ⟨hb, hc⟩
    exact hns ⟨hb, by simpa using hc⟩

/-- Indexing into a list with one element appended. -/
theorem get_append_single {α : Type} (l : List α) (x : α) :
    ∀ (i : ℕ) (h : i < (l ++ [x]).length),
      (l ++ [x]).get ⟨i, h⟩ = if hi : i < l.length then l.get ⟨i, hi⟩ else x := by
  induction l with
  | nil =>
    intro i h
    have hi0 : i = 0 := by
      simp only [List.nil_append, List.length_cons, List.length_nil] at h
      omega
    subst hi0
    simp
  | cons a l ih =>
    intro i h
    cases i with
    | zero => simp
    | succ j =>
      have hj : j < (l ++ [x]).length := by
        simp only [List.cons_append, List.length_cons] at h
        omega
      have hstep : ((a :: l) ++ [x]).get ⟨j + 1, h⟩ = (l ++ [x]).get ⟨j, hj⟩ := rfl
      rw [hstep, ih j hj]
      by_cases hjl : j < l.length
      · rw [dif_pos hjl, dif_pos (by simpa using Nat.succ_lt_succ hjl)]
        rfl
      · rw [dif_neg hjl, dif_neg (by simp; omega)]

/-- `flush` with `eof = true` and a succeeding callback: everything is
flushed out.  The events carry consecutive block indices starting at
`m`; all but the last have length exactly `B`; every event of length
`B` sits at a block-aligned position; all events are tagged
`eof = true`; the buffer ends empty and the eof flag ends true. -/
theorem flush_true_ok (B : ℕ) (hB : 0 < B) (cbFail : ℕ → SPEvent → Bool)
    (hcb : ∀ i ev, cbFail i ev = false) (chunk : List ℕ)
    (s : SPState) (cnt m : ℕ)
    (hskip : s.skip = false) (hbs : s.blockSize = B) (hlen : s.buf.length ≤ B)
    (hpos : s.pos = m * B + s.buf.length) :
    ∃ s' evs,
      flush cbFail true chunk s cnt = (s', cnt + evs.length, evs, none) ∧
      s'.skip = false ∧
      s'.blockSize = B ∧
      s'.pos = s.pos + chunk.length ∧
      s'.buf = [] ∧
      (evs.map SPEvent.buf).flatten = s.buf ++ chunk ∧
      (∀ i (h : i < evs.length),
        (evs.get ⟨i, h⟩).bitIdx = (m + i) % U32 ∧ 1 ≤ (evs.get ⟨i, h⟩).buf.length ∧
        (evs.get ⟨i, h⟩).buf.length ≤ B ∧
        ((evs.get ⟨i, h⟩).buf.length = B → (evs.get ⟨i, h⟩).pos = (m + i + 1) * B) ∧
        (evs.get ⟨i, h⟩).eof = true) ∧
      (∀ i (h : i + 1 < evs.length), (evs.get ⟨i, by omega⟩).buf.length = B) ∧
      s'.eofFlag = true := by
  obtain ⟨s1, evs1, hrun, h1, h2, h3, h4, h5, h6, h7, h8, h9⟩ :=
    flushLoop_ok B hB cbFail hcb true chunk (chunk.length + 2) s cnt 0 m
      hskip hbs hlen hpos (by omega) (by omega)
  by_cases h0 : s1.buf.length = 0
  · -- the loop left an empty buffer: the trailing writeBlock only records eof
    have hbuf1 : s1.buf = [] := List.length_eq_zero.mp h0
    have hse : s.buf = [] ∧ chunk = [] := by
      by_contra hc
      refine h6 ?_ hbuf1
      rintro ⟨hb, hl⟩
      exact hc ⟨hb, List.length_eq_zero.mp (by omega)⟩
    have hb0 : s.buf.length = 0 := by rw [hse.1]; rfl
    have hc0 : chunk.length = 0 := by rw [hse.2]; rfl
    have h7x : s1.pos = m * B + evs1.length * B + s1.buf.length := by rw [h7]; ring
    have hy : evs1.length * B = 0 := by omega
    have hlen0 : evs1.length = 0 := by
      rcases Nat.mul_eq_zero.mp hy with h | h
      · exact h
      · omega
    have hevs1 : evs1 = [] := List.length_eq_zero.mp hlen0
    have hw : writeBlock cbFail (cnt + evs1.length) s1 true =
        ({ s1 with eofFlag := true }, cnt + evs1.length, [], none) := by
      rw [writeBlock_ok_any cbFail hcb (cnt + evs1.length) s1 true (m + evs1.length) B hB h2 h7,
        if_pos h0]
    have hflush : flush cbFail true chunk s cnt =
        ({ s1 with eofFlag := true }, cnt + evs1.length, evs1 ++ [], none) := by
      simp only [flush, hrun, Option.isSome_none, Bool.false_eq_true, if_false, if_true, hw]
    refine ⟨{ s1 with eofFlag := true }, [], ?_, h1, h2, ?_, hbuf1, ?_, ?_, ?_, rfl⟩
    · rw [hevs1] at hflush
      simpa using hflush
    · show s1.pos = s.pos + chunk.length
      omega
    · rw [hse.1, hse.2]
      simp
    · intro i h
      exact absurd h (by simp)
    · intro i h
      exact absurd h (by simp)
  · -- a nonempty trailing buffer is flushed as one final (possibly short) block
    have hw : writeBlock cbFail (cnt + evs1.length) s1 true =
        ({ s1 with eofFlag := true, buf := [] }, cnt + evs1.length + 1,
          [⟨s1.buf, (m + evs1.length) % U32, s1.pos, true⟩], none) := by
      rw [writeBlock_ok_any cbFail hcb (cnt + evs1.length) s1 true (m + evs1.length) B hB h2 h7,
        if_neg h0]
    have hflush : flush cbFail true chunk s cnt =
        ({ s1 with eofFlag := true, buf := [] }, cnt + evs1.length + 1,
          evs1 ++ [⟨s1.buf, (m + evs1.length) % U32, s1.pos, true⟩], none) := by
      simp only [flush, hrun, Option.isSome_none, Bool.false_eq_true, if_false, if_true, hw]
    refine ⟨{ s1 with eofFlag := true, buf := [] },
      evs1 ++ [⟨s1.buf, (m + evs1.length) % U32, s1.pos, true⟩], ?_, h1, h2, ?_, rfl, ?_, ?_, ?_, rfl⟩
    · rw [hflush]
      have hc : cnt + evs1.length + 1
          = cnt + (evs1 ++ [(⟨s1.buf, (m + evs1.length) % U32, s1.pos, true⟩ : SPEvent)]).length := by
        simp only [List.length_append, List.length_cons, List.length_nil]
        omega
      rw [hc]
    · show s1.pos = s.pos + chunk.length
      omega
    · simpa using h4
    · intro i h
      rw [get_append_single]
      by_cases hi : i < evs1.length
      · rw [dif_pos hi]
        obtain ⟨e1, e2, e3, e4⟩ := h8 i hi
        exact ⟨e1, by omega, by omega, fun _ => e3, e4⟩
      · rw [dif_neg hi]
        have hieq : i = evs1.length := by
          have : i < evs1.length + 1 := by simpa using h
          omega
        subst hieq
        refine ⟨rfl, by show 1 ≤ s1.buf.length; omega, h5, ?_, rfl⟩
        intro hfull
        show s1.pos = (m + evs1.length + 1) * B
        rw [h7]
        show (m + evs1.length) * B + s1.buf.length = (m + evs1.length + 1) * B
        rw [hfull]
        ring
    · intro i h
      have hi : i < evs1.length := by
        have : i + 1 < evs1.length + 1 := by simpa using h
        omega
      rw [get_append_single, dif_pos hi]
      exact (h8 i hi).2.1

/-- A list of events with an empty byte concatenation and all buffers
of positive length `B` is empty. -/
theorem eq_nil_of_flatten_nil (l : List SPEvent) (B : ℕ) (hB : 0 < B)
    (hfl : (l.map SPEvent.buf).flatten = [])
    (hfull : ∀ i (h : i < l.length), (l.get ⟨i, h⟩).buf.length = B) : l = [] := by
  cases l with
  | nil => rfl
  | cons e t =>
    exfalso
    have h0 : e.buf.length = B := hfull 0 (by simp)
    simp only [List.map_cons, List.flatten_cons] at hfl
    have he : e.buf = [] := (List.append_eq_nil.mp hfl).1
    have h0' : B = 0 := by rw [← h0, he]; rfl
    omega

/-- Driving `savepartReader.Read` over a whole underlying stream (a
list of successful reads followed by the EOF read), with a succeeding
callback and no skipping: the callback sees the stream cut into
blocks.  Events carry consecutive indices from `m`; all buffers are
nonempty and at most `B` long; all but the last are exactly `B` long;
a full buffer is delivered at the block-aligned position; the last
event is flagged `eof`; each successful read reports its byte count
and the EOF read reports `io.EOF`. -/
theorem runReads_ok (B : ℕ) (hB : 0 < B) (chunks : List (List ℕ)) (last : List ℕ) :
    ∀ (s : SPState) (cnt m : ℕ),
      s.skip = false → s.blockSize = B → s.buf.length ≤ B →
      s.pos = m * B + s.buf.length →
      ∃ (s' : SPState) (evs : List SPEvent) (ress : List ReadResult),
        runReads cbOk s cnt (chunks.map URead.ok ++ [URead.eofR last])
          = (s', cnt + evs.length, evs, ress) ∧
        s'.buf = [] ∧
        s'.eofFlag = true ∧
        (evs.map SPEvent.buf).flatten = s.buf ++ chunks.flatten ++ last ∧
        (∀ i (h : i < evs.length),
          (evs.get ⟨i, h⟩).bitIdx = (m + i) % U32 ∧ 1 ≤ (evs.get ⟨i, h⟩).buf.length ∧
          (evs.get ⟨i, h⟩).buf.length ≤ B ∧
          ((evs.get ⟨i, h⟩).buf.length = B →
            (evs.get ⟨i, h⟩).pos = (m + i + 1) * B)) ∧
        (∀ i (h : i + 1 < evs.length), (evs.get ⟨i, by omega⟩).buf.length = B) ∧
        (∀ i (h : i < evs.length), i + 1 = evs.length → (evs.get ⟨i, h⟩).eof = true) ∧
        ress = chunks.map (fun c => ReadResult.bytes c.length)
          ++ [ReadResult.eofOut last.length] := by
  induction chunks with
  | nil =>
    intro s cnt m hskip hbs hlen hpos
    obtain ⟨s1, evs1, hflush, g1, g2, g3, g4, g5, g6, g7, g8⟩ :=
      flush_true_ok B hB cbOk (fun _ _ => rfl) last s cnt m hskip hbs hlen hpos
    have hstep : readStep cbOk s cnt (.eofR last)
        = (s1, cnt + evs1.length, evs1, .eofOut last.length) := by
      simp only [readStep, hflush]
    have hrun : runReads cbOk s cnt [.eofR last]
        = (s1, cnt + evs1.length, evs1 ++ [], [.eofOut last.length]) := by
      simp only [runReads, hstep]
    refine ⟨s1, evs1, [.eofOut last.length], ?_, g4, g8, ?_, ?_, g7, ?_, rfl⟩
    · rw [show (List.map URead.ok [] ++ [URead.eofR last]) = [URead.eofR last] by simp, hrun]
      simp
    · simpa using g5
    · intro i h
      obtain ⟨e1, e2, e3, e4, _⟩ := g6 i h
      exact ⟨e1, e2, e3, e4⟩
    · intro i h _
      exact (g6 i h).2.2.2.2
  | cons c cs ih =>
    intro s cnt m hskip hbs hlen hpos
    obtain ⟨s1, evs1, hflush, f1, f2, f3, f4, f5, f6, f7, f8, f9⟩ :=
      flush_false_ok B hB cbOk (fun _ _ => rfl) c s cnt m hskip hbs hlen hpos
    have hstep : readStep cbOk s cnt (.ok c)
        = (s1, cnt + evs1.length, evs1, .bytes c.length) := by
      simp only [readStep, hflush]
    obtain ⟨s2, evsR, ressR, hrunR, r1, r2, r3, r4, r5, r6, r7⟩ :=
      ih s1 (cnt + evs1.length) (m + evs1.length) f1 f2 f5 f7
    have hrun : runReads cbOk s cnt ((c :: cs).map URead.ok ++ [URead.eofR last])
        = (s2, cnt + evs1.length + evsR.length, evs1 ++ evsR,
            ReadResult.bytes c.length :: ressR) := by
      simp only [List.map_cons, List.cons_append, runReads, List.append_eq, hstep, hrunR]
    have hfullL : ∀ i (h : i < evs1.length), (evs1.get ⟨i, h⟩).buf.length = B :=
      fun i h => (f8 i h).2.1
    refine ⟨s2, evs1 ++ evsR, ReadResult.bytes c.length :: ressR, ?_, r1, r2, ?_, ?_, ?_, ?_, ?_⟩
    · rw [hrun]
      have hc : cnt + evs1.length + evsR.length = cnt + (evs1 ++ evsR).length := by
        simp only [List.length_append]
        omega
      rw [hc]
    · simp only [List.map_append, List.flatten_append, r3, List.flatten_cons,
        ← List.append_assoc]
      rw [f4]
    · intro i h
      by_cases hi : i < evs1.length
      · rw [List.get_append i hi]
        obtain ⟨e1, e2, e3, _⟩ := f8 i hi
        exact ⟨e1, by omega, by omega, fun _ => e3⟩
      · have hle : evs1.length ≤ i := by omega
        have hj : i - evs1.length < evsR.length := by
          simp only [List.length_append] at h
          omega
        rw [List.get_append_right _ _ (by omega)]
        obtain ⟨e1, e2, e3, e4⟩ := r4 (i - evs1.length) (by omega)
        refine ⟨?_, e2, e3, ?_⟩
        · rw [show (⟨i - evs1.length, by omega⟩ : Fin evsR.length)
            = ⟨i - evs1.length, hj⟩ by rfl, e1]
          have e : m + evs1.length + (i - evs1.length) = m + i := by omega
          rw [e]
        · intro hfl
          rw [show (⟨i - evs1.length, by omega⟩ : Fin evsR.length)
            = ⟨i - evs1.length, hj⟩ by rfl] at hfl ⊢
          rw [e4 hfl]
          have : m + evs1.length + (i - evs1.length) + 1 = m + i + 1 := by omega
          rw [this]
    · intro i h
      by_cases hi : i < evs1.length
      · rw [List.get_append i hi]
        exact hfullL i hi
      · have hj : i - evs1.length + 1 < evsR.length := by
          simp only [List.length_append] at h
          omega
        rw [List.get_append_right _ _ (by omega)]
        exact r5 (i - evs1.length) hj
    · intro i h hlast
      by_cases hR : evsR = []
      · exfalso
        have hsb1 : s1.buf = [] := by
          rw [hR] at r3
          simp only [List.map_nil, List.flatten_nil] at r3
          exact (List.append_eq_nil.mp (List.append_eq_nil.mp r3.symm).1).1
        have hsc : s.buf = [] ∧ c = [] := by
          by_contra hcon
          exact f6 hcon hsb1
        have hfl1 : (evs1.map SPEvent.buf).flatten = [] := by
          rw [hsb1, hsc.1, hsc.2] at f4
          simpa using f4
        have : evs1 = [] := eq_nil_of_flatten_nil evs1 B hB hfl1 hfullL
        rw [this, hR] at h
        simp at h
      · have hlenR : 0 < evsR.length := List.length_pos.mpr hR
        have hle : evs1.length ≤ i := by
          simp only [List.length_append] at hlast
          omega
        have hj : i - evs1.length < evsR.length := by
          simp only [List.length_append] at h
          omega
        rw [List.get_append_right _ _ (by omega)]
        refine r6 (i - evs1.length) (by omega) ?_
        simp only [List.length_append] at hlast
        omega
    · rw [r7]
      simp

/-- The total length of a flattened list of lists, each of length at
most `B`, is at most (number of lists) × `B`. -/
theorem length_flatten_le (l : List (List ℕ)) (B : ℕ)
    (h : ∀ x ∈ l, x.length ≤ B) : l.flatten.length ≤ l.length * B := by
  induction l with
  | nil => simp
  | cons a t ih =>
    simp only [List.flatten_cons, List.length_append, List.length_cons]
    have ha := h a (by simp)
    have ht := ih (fun x hx => h x (by simp [hx]))
    calc a.length + t.flatten.length ≤ B + t.length * B := by omega
    _ = (t.length + 1) * B := by ring

/-- C2 counterexample.  The callback's block index is a `uint32`
(`mod := uint32((s.pos - buflen) / s.blockSize)`), so it is NOT always
`(pos - B) / B`: with block size 1, reading a stream of `2^32 + 1`
bytes to EOF delivers a full block (length exactly `B = 1`) whose
absolute position `pos` satisfies `(pos - B) / B = 2^32` but whose
delivered block index is the truncated `0`. -/
theorem savepart_bitIdx_wraps :
    ∃ (s' : SPState) (evs : List SPEvent) (ress : List ReadResult),
      runReads cbOk (initSavepart 1 0) 0
          ([List.replicate (U32 + 1) 0].map URead.ok ++ [URead.eofR []])
        = (s', evs.length, evs, ress) ∧
      ∃ h : U32 < evs.length,
        (evs.get ⟨U32, h⟩).buf.length = 1 ∧
        (evs.get ⟨U32, h⟩).bitIdx = 0 ∧
        ((evs.get ⟨U32, h⟩).pos - 1) / 1 = U32 := by
  obtain ⟨s', evs, ress, hrun, _, _, hflat, hev, hbutlast, heof, hress⟩ :=
    runReads_ok 1 (by decide) [List.replicate (U32 + 1) 0] [] (initSavepart 1 0) 0 0
      rfl rfl (by simp [initSavepart]) (by simp [initSavepart])
  have hflatlen : ((evs.map SPEvent.buf).flatten).length = U32 + 1 := by
    rw [hflat]
    simp [initSavepart]
  have hle1 : ∀ x ∈ evs.map SPEvent.buf, x.length ≤ 1 := by
    intro x hx
    obtain ⟨ev, hevmem, hxe⟩ := List.mem_map.mp hx
    obtain ⟨⟨i, hi⟩, hg⟩ := List.mem_iff_get.mp hevmem
    rw [← hxe, ← hg]
    exact (hev i hi).2.2.1
  have hlen : U32 + 1 ≤ evs.length := by
    have := length_flatten_le (evs.map SPEvent.buf) 1 hle1
    rw [hflatlen, List.length_map] at this
    omega
  have h : U32 < evs.length := by omega
  obtain ⟨e1, e2, e3, e4⟩ := hev U32 h
  have hfull : (evs.get ⟨U32, h⟩).buf.length = 1 := by omega
  refine ⟨s', evs, ress, ?_, h, hfull, ?_, ?_⟩
  · rw [hrun]
    have hz : (0 : ℕ) + evs.length = evs.length := by omega
    rw [hz]
  · rw [e1]
    have e : 0 + U32 = U32 := by omega
    rw [e, Nat.mod_self]
  · rw [e4 hfull]
    have e : (0 + U32 + 1) * 1 = U32 + 1 := by ring
    rw [e, Nat.add_sub_cancel, Nat.div_one]

/-- C2 (amended).  Reading a whole byte stream to EOF through the
savepart reader with block size `B > 0` and start offset 0 (total
length within the uint64 position range) invokes the per-block
callback on a sequence of buffers whose concatenation in emission
order equals the input byte-for-byte; every buffer except possibly
the last has length exactly `B`; the delivered block index — a
`uint32` — is the event ordinal reduced `% 2^32`, and for a full
block it equals `(pos - B) / B % 2^32` of its absolute position
`pos`; when the stream has at most `2^32` blocks the indices are
untruncated, i.e. exactly `i` and `(pos - B) / B`; the final buffer
is flushed with `eof = true`; and every read succeeds, the last one
reporting `io.EOF`. -/
theorem savepart_roundtrip (B : ℕ) (hB : 0 < B)
    (chunks : List (List ℕ)) (last : List ℕ)
    (hN : chunks.flatten.length + last.length < 2 ^ 64) :
    ∃ (s' : SPState) (evs : List SPEvent) (ress : List ReadResult),
      runReads cbOk (initSavepart B 0) 0 (chunks.map URead.ok ++ [URead.eofR last])
        = (s', evs.length, evs, ress) ∧
      (evs.map SPEvent.buf).flatten = chunks.flatten ++ last ∧
      (∀ i (h : i < evs.length), (evs.get ⟨i, h⟩).bitIdx = i % U32) ∧
      (∀ i (h : i + 1 < evs.length), (evs.get ⟨i, by omega⟩).buf.length = B) ∧
      (∀ i (h : i < evs.length),
        1 ≤ (evs.get ⟨i, h⟩).buf.length ∧ (evs.get ⟨i, h⟩).buf.length ≤ B) ∧
      (∀ i (h : i < evs.length), (evs.get ⟨i, h⟩).buf.length = B →
        (evs.get ⟨i, h⟩).bitIdx = ((evs.get ⟨i, h⟩).pos - B) / B % U32) ∧
      (evs.length ≤ U32 → ∀ i (h : i < evs.length),
        (evs.get ⟨i, h⟩).bitIdx = i ∧
        ((evs.get ⟨i, h⟩).buf.length = B →
          (evs.get ⟨i, h⟩).bitIdx = ((evs.get ⟨i, h⟩).pos - B) / B)) ∧
      (∀ i (h : i < evs.length), i + 1 = evs.length → (evs.get ⟨i, h⟩).eof = true) ∧
      ress = chunks.map (fun c => ReadResult.bytes c.length)
        ++ [ReadResult.eofOut last.length] := by
  obtain ⟨s', evs, ress, hrun, _, _, hflat, hev, hbutlast, heof, hress⟩ :=
    runReads_ok B hB chunks last (initSavepart B 0) 0 0 rfl rfl (by simp [initSavepart])
      (by simp [initSavepart])
  refine ⟨s', evs, ress, ?_, by simpa [initSavepart] using hflat, ?_, hbutlast, ?_, ?_, ?_,
    heof, hress⟩
  · rw [hrun]
    have hz : (0 : ℕ) + evs.length = evs.length := by omega
    rw [hz]
  · intro i h
    rw [(hev i h).1]
    have e : 0 + i = i := by omega
    rw [e]
  · intro i h
    obtain ⟨_, e2, e3, _⟩ := hev i h
    exact ⟨e2, e3⟩
  · intro i h hfl
    obtain ⟨e1, _, _, e4⟩ := hev i h
    rw [e1, e4 hfl]
    have hx : (0 + i + 1) * B = i * B + B := by ring
    rw [hx, Nat.add_sub_cancel, Nat.mul_div_cancel _ hB]
    have e : 0 + i = i := by omega
    rw [e]
  · intro hle i h
    obtain ⟨e1, _, _, e4⟩ := hev i h
    have hiU : i < U32 := lt_of_lt_of_le h hle
    constructor
    · rw [e1]
      have e : 0 + i = i := by omega
      rw [e, Nat.mod_eq_of_lt hiU]
    · intro hfl
      rw [e1, e4 hfl]
      have hx : (0 + i + 1) * B = i * B + B := by ring
      rw [hx, Nat.add_sub_cancel, Nat.mul_div_cancel _ hB]
      have e : 0 + i = i := by omega
      rw [e, Nat.mod_eq_of_lt hiU]

/-- Witness for C2 (amended): block size 2 over the stream
[1,2,3] ++ [4]. -/
theorem savepart_roundtrip_witness :
    0 < 2 ∧ ([[1,2,3]] : List (List ℕ)).flatten.length + ([4] : List ℕ).length < 2 ^ 64 ∧
    (∃ (s' : SPState) (evs : List SPEvent) (ress : List ReadResult),
      runReads cbOk (initSavepart 2 0) 0 ([[1,2,3]].map URead.ok ++ [URead.eofR [4]])
        = (s', evs.length, evs, ress) ∧
      (evs.map SPEvent.buf).flatten = [[1,2,3]].flatten ++ [4] ∧
      (∀ i (h : i < evs.length), (evs.get ⟨i, h⟩).bitIdx = i % U32) ∧
      (∀ i (h : i + 1 < evs.length), (evs.get ⟨i, by omega⟩).buf.length = 2) ∧
      (∀ i (h : i < evs.length),
        1 ≤ (evs.get ⟨i, h⟩).buf.length ∧ (evs.get ⟨i, h⟩).buf.length ≤ 2) ∧
      (∀ i (h : i < evs.length), (evs.get ⟨i, h⟩).buf.length = 2 →
        (evs.get ⟨i, h⟩).bitIdx = ((evs.get ⟨i, h⟩).pos - 2) / 2 % U32) ∧
      (evs.length ≤ U32 → ∀ i (h : i < evs.length),
        (evs.get ⟨i, h⟩).bitIdx = i ∧
        ((evs.get ⟨i, h⟩).buf.length = 2 →
          (evs.get ⟨i, h⟩).bitIdx = ((evs.get ⟨i, h⟩).pos - 2) / 2)) ∧
      (∀ i (h : i < evs.length), i + 1 = evs.length → (evs.get ⟨i, h⟩).eof = true) ∧
      ress = [[1,2,3]].map (fun c => ReadResult.bytes c.length)
        ++ [ReadResult.eofOut ([4] : List ℕ).length]) :=
  ⟨by decide, by decide, savepart_roundtrip 2 (by decide) [[1,2,3]] [4] (by decide)⟩

/-- C3 counterexample.  The callback error is not sticky: with block
size 1 and a callback failing on its first invocation, the second
read returns the callback error, but the third (EOF) read of the same
reader returns plain `io.EOF` with no error — the source never stores
the flush error in the reader state (unlike the async variant, which
has a `writeErr` field).  `Close` still hands the close callback the
observed eof flag. -/
theorem savepart_error_not_sticky_counterexample :
    (runReads cbOnce (initSavepart 1 0) 0
        [URead.ok [10], URead.ok [11], URead.eofR []]).2.2.2
      = [ReadResult.bytes 1, ReadResult.errored 1 (SPErr.callback 0),
         ReadResult.eofOut 0] ∧
    savepartCloseFlag (runReads cbOnce (initSavepart 1 0) 0
        [URead.ok [10], URead.ok [11], URead.eofR []]).1 = true := by
  decide

/-- C3 (amended).  A callback error is returned by the `Read` in which
it occurs, but it is not retained: a subsequent `Read` whose callback
invocations succeed completes without error (the reader state has no
error field), and `Close` passes the close callback exactly the eof
flag observed so far. -/
theorem savepart_callback_error_not_retained :
    (∀ (cbFail : ℕ → SPEvent → Bool) (s : SPState) (cnt : ℕ) (chunk : List ℕ)
        (e : SPErr),
        (flush cbFail false chunk s cnt).2.2.2 = some e →
        (readStep cbFail s cnt (URead.ok chunk)).2.2.2
          = ReadResult.errored chunk.length e) ∧
    (∀ (B : ℕ), 0 < B → ∀ (s : SPState) (cnt m : ℕ) (chunk : List ℕ),
        s.skip = false → s.blockSize = B → s.buf.length ≤ B →
        s.pos = m * B + s.buf.length →
        ∃ s' evs, readStep cbOk s cnt (URead.ok chunk)
          = (s', cnt + evs.length, evs, ReadResult.bytes chunk.length)) ∧
    (∀ s : SPState, savepartCloseFlag s = s.eofFlag) := by
  refine ⟨?_, ?_, fun s => rfl⟩
  · intro cbFail s cnt chunk e he
    simp only [readStep, he]
  · intro B hB s cnt m chunk hskip hbs hlen hpos
    obtain ⟨s1, evs1, hflush, -, -, -, -, -, -, -, -, -⟩ :=
      flush_false_ok B hB cbOk (fun _ _ => rfl) chunk s cnt m hskip hbs hlen hpos
    refine ⟨s1, evs1, ?_⟩
    simp only [readStep, hflush]

/-- Witness for the amended C3 statement: the error of the second
read above is the flush error and is reported by that read; the next
read, from the post-error state, succeeds; `Close` reports the eof
flag. -/
theorem savepart_callback_error_not_retained_witness :
    (flush cbOnce false [11] ⟨false, false, 1, 1, [10]⟩ 0).2.2.2
      = some (SPErr.callback 0) ∧
    (readStep cbOnce ⟨false, false, 1, 1, [10]⟩ 0 (URead.ok [11])).2.2.2
      = ReadResult.errored 1 (SPErr.callback 0) ∧
    0 < 1 ∧
    (∃ s' evs, readStep cbOk ⟨false, false, 1, 1, [10]⟩ 1 (URead.ok [12])
      = (s', 1 + evs.length, evs, ReadResult.bytes 1)) ∧
    savepartCloseFlag ⟨false, true, 2, 1, []⟩ = true :=
  ⟨by decide,
   savepart_callback_error_not_retained.1 cbOnce ⟨false, false, 1, 1, [10]⟩ 0 [11]
     (SPErr.callback 0) (by decide),
   by decide,
   savepart_callback_error_not_retained.2.1 1 (by decide) ⟨false, false, 1, 1, [10]⟩ 1 0 [12]
     rfl rfl (by decide) (by decide),
   savepart_callback_error_not_retained.2.2 ⟨false, true, 2, 1, []⟩⟩

end Tavern